import Mathlib

/-!
Verification of the python-program-analysis core against its specification.

The TypeScript sources are shallowly embedded: JavaScript objects keyed by
identifier strings become lists kept unique by key (later insertions
overwrite in place, as JS object assignment does), class methods become
functions threading their state explicitly, and thrown exceptions become
Except results.  External collaborators (the parser, the magics rewriter,
the control-flow-graph builder, the tree walkers) are taken as parameters,
as section 6 of the specification declares them out of scope.
-/

set_option maxRecDepth 4000

/-! ## Keyed sets (src/set.ts)

`Set<T>` stores items in a JS object keyed by `getIdentifier(item)`.
We model the object as the list of stored items in enumeration order and
pass the identifier function to every operation.  JS object key enumeration
lists integer-like keys first; none of the theorems below depend on the
enumeration order beyond it enumerating exactly the stored items.
-/

/-- The stored items of a JS-object-backed keyed set, in enumeration order. -/
abbrev JSet (T : Type) := List T

/-- Keys of all entries. -/
def setKeys {T : Type} (k : T → String) (l : JSet T) : List String :=
  l.map k

/-- Well-formed stored object: one entry per key. -/
def SetWF {T : Type} (k : T → String) (l : JSet T) : Prop :=
  (setKeys k l).Nodup

instance {T : Type} (k : T → String) (l : JSet T) : Decidable (SetWF k l) := by
  unfold SetWF; infer_instance

/-- `this._items[key] = item`: overwrite in place if the key exists, else append. -/
def setStore {T : Type} (k : T → String) (l : JSet T) (x : T) : JSet T :=
  if l.any (fun y => k y = k x) then l.map (fun y => if k y = k x then x else y)
  else l ++ [x]

/-- `add(...items)` (set.ts line 15): store each item under its identifier. -/
def setAdd {T : Type} (k : T → String) (l : JSet T) (xs : List T) : JSet T :=
  xs.foldl (setStore k) l

/-- `new Set(getIdentifier, ...items)` (set.ts line 5). -/
def mkSet {T : Type} (k : T → String) (xs : List T) : JSet T :=
  setAdd k [] xs

/-- `has(item)` (set.ts line 33): key lookup. -/
def setHas {T : Type} (k : T → String) (l : JSet T) (x : T) : Bool :=
  l.any (fun y => k y = k x)

/-- `remove(item)` (set.ts line 19): delete the entry stored under the item's key. -/
def setRemove {T : Type} (k : T → String) (l : JSet T) (x : T) : JSet T :=
  if setHas k l x then l.filter (fun y => ¬ k y = k x) else l

/-- `union(...those)` (set.ts line 51), binary form: rebuild from concatenated items. -/
def setUnion {T : Type} (k : T → String) (a b : JSet T) : JSet T :=
  mkSet k (a ++ b)

/-- `minus(that)` (set.ts line 84). -/
def setMinus {T : Type} (k : T → String) (a b : JSet T) : JSet T :=
  mkSet k (a.filter (fun x => ¬ setHas k b x))

/-- `filter(predicate)` (set.ts line 65). -/
def setFilter {T : Type} (k : T → String) (p : T → Bool) (l : JSet T) : JSet T :=
  mkSet k (l.filter p)

/-- `intersect(that)` (set.ts line 58). -/
def setIntersect {T : Type} (k : T → String) (a b : JSet T) : JSet T :=
  mkSet k (a.filter (fun x => setHas k b x))

/-- `some(predicate)` (set.ts line 80). -/
def setSome {T : Type} (p : T → Bool) (l : JSet T) : Bool :=
  l.any p

/-- `size` (set.ts line 11). -/
def setSize {T : Type} (l : JSet T) : Nat :=
  l.length

/-- `empty` (set.ts line 47). -/
def setEmpty {T : Type} (l : JSet T) : Bool :=
  l.isEmpty

/-- `equals(that)` (set.ts line 41): same size and every item's key found in the other. -/
def setEquals {T : Type} (k : T → String) (a b : JSet T) : Bool :=
  setSize a = setSize b && a.all (fun x => setHas k b x)

/-- `pop()` (set.ts lines 25-31): throws the string `'empty'` on an empty set,
otherwise removes and returns the first enumerated entry. -/
def setPop {T : Type} (k : T → String) (l : JSet T) : Except String (T × JSet T) :=
  match l with
  | [] => .error ("empty")
  | x :: _ => .ok (x, setRemove k l x)

/-- The code points `parseInt` strips as leading whitespace: ECMA-262
WhiteSpace (TAB VT FF SP NBSP ZWNBSP and the Zs category) and
LineTerminator (LF CR LS PS). -/
def jsIsWhite (c : Char) : Bool :=
  c.toNat = 0x09 || c.toNat = 0x0A || c.toNat = 0x0B || c.toNat = 0x0C
    || c.toNat = 0x0D || c.toNat = 0x20 || c.toNat = 0xA0 || c.toNat = 0x1680
    || (0x2000 ≤ c.toNat && c.toNat ≤ 0x200A)
    || c.toNat = 0x2028 || c.toNat = 0x2029 || c.toNat = 0x202F
    || c.toNat = 0x205F || c.toNat = 0x3000 || c.toNat = 0xFEFF

/-- A JavaScript number as `parseInt` can produce it: NaN, a signed
infinity, or a finite integer-valued binary64 double carried at its exact
mathematical value. -/
inductive JsNum where
  | nan
  | inf (neg : Bool)
  | int (n : Int)
deriving DecidableEq, Repr

/-- Binary length of a natural number, with explicit fuel (any fuel at
least the bit count gives the exact length; `natBitLen _ 0 = 0`). -/
def natBitLen : Nat → Nat → Nat
  | 0, _ => 0
  | fuel + 1, n => if n = 0 then 0 else natBitLen fuel (n / 2) + 1

/-- Round a natural number to the nearest binary64-representable integer
(53-bit significand, ties to even); `bl` is its binary length.  `none`
means overflow to infinity (a rounded magnitude of `2 ^ 1024` or more,
the IEEE 754 overflow rule). -/
def dblRoundNat (bl : Nat) (a : Nat) : Option Nat :=
  if a ≤ 2 ^ 53 then some a
  else
    let e := bl - 53
    let q := a / 2 ^ e
    let r := a % 2 ^ e
    let half := 2 ^ (e - 1)
    let q2 := if half < r ∨ (r = half ∧ q % 2 = 1) then q + 1 else q
    let v := q2 * 2 ^ e
    if v < 2 ^ 1024 then some v else none

/-- `ToNumber` of an exact integer: the nearest binary64 value, or a
signed infinity on overflow.  `fuel` bounds the binary length of the
magnitude. -/
def jsDouble (fuel : Nat) (n : Int) : JsNum :=
  let a := n.natAbs
  match dblRoundNat (natBitLen fuel a) a with
  | some v => .int (if n < 0 then -(v : Int) else (v : Int))
  | none => .inf (decide (n < 0))

/-- Value of one digit character, accepting the hexadecimal range. -/
def hexVal (c : Char) : Option Nat :=
  if '0' ≤ c ∧ c ≤ '9' then some (c.toNat - '0'.toNat)
  else if 'a' ≤ c ∧ c ≤ 'f' then some (c.toNat - 'a'.toNat + 10)
  else if 'A' ≤ c ∧ c ≤ 'F' then some (c.toNat - 'A'.toNat + 10)
  else none

/-- The maximal prefix of digits valid in the given base. -/
def jsDigitList (base : Nat) : List Char → List Nat
  | [] => []
  | c :: rest =>
    match hexVal c with
    | some v => if v < base then v :: jsDigitList base rest else []
    | none => []

/-- JavaScript `parseInt` with an undefined radix (ECMA-262
`parseInt (string, radix)`): strip leading whitespace, accept an optional
sign, autodetect radix 16 on a `0x`/`0X` prefix (radix 10 otherwise),
read the maximal valid digit prefix — NaN when it is empty — and convert
the resulting exact integer to a binary64 double. -/
def jsParseInt (s : String) : JsNum :=
  let cs := s.data.dropWhile (fun c => jsIsWhite c)
  let signed : Bool × List Char :=
    match cs with
    | '-' :: rest => (true, rest)
    | '+' :: rest => (false, rest)
    | _ => (false, cs)
  let based : Nat × List Char :=
    match signed.2 with
    | '0' :: 'x' :: rest => (16, rest)
    | '0' :: 'X' :: rest => (16, rest)
    | _ => (10, signed.2)
  let ds := jsDigitList based.1 based.2
  if ds = [] then .nan
  else
    let a := ds.foldl (fun acc d => acc * based.1 + d) 0
    jsDouble (4 * ds.length + 64) (if signed.1 then -(a : Int) else (a : Int))

/-- Whether a decimal integer converts back to exactly the double value
`a` (decimal-to-binary64 conversion is round-to-nearest, ties to even). -/
def dblN (d : Nat) : Option Nat :=
  dblRoundNat (natBitLen (4 * (Nat.repr d).length + 64) d) d

/-- The shortest-significand decimal for the integral double value `a`
with `m` decimal digits (ECMA-262 `Number::toString`): scanning widths
`k = 1, 2, ...`, take the first `k` at which rounding `a` to `k`
significant decimal digits (down to `d1` or up to `d2`) converts back to
`a`; among the two pick the closer, ties to the larger. -/
def shortestDecGo (a m : Nat) : Nat → Nat → Nat
  | 0, _ => a
  | fuel + 1, k =>
    if m ≤ k then a
    else
      let p := 10 ^ (m - k)
      let d1 := a / p * p
      let d2 := d1 + p
      if dblN d1 = some a ∧ dblN d2 = some a then
        (if a - d1 < d2 - a then d1 else d2)
      else if dblN d1 = some a then d1
      else if dblN d2 = some a then d2
      else shortestDecGo a m fuel (k + 1)

/-- Drop the trailing decimal zeros of a positive number (fuelled). -/
def stripZeros : Nat → Nat → Nat
  | 0, d => d
  | fuel + 1, d => if d % 10 = 0 ∧ d ≠ 0 then stripZeros fuel (d / 10) else d

/-- ECMA-262 exponential rendering of the chosen decimal `d` (used for
magnitudes of `10 ^ 21` and above): significand digits with a point after
the first when there are several, then `e+` and the decimal exponent. -/
def expRender (d : Nat) : String :=
  let n := (Nat.repr d).length
  let s := stripZeros n d
  let sr := Nat.repr s
  let mant :=
    match sr.data with
    | [] => sr
    | [_] => sr
    | c :: rest => String.mk [c] ++ "." ++ String.mk rest
  mant ++ "e+" ++ Nat.repr (n - 1)

/-- JavaScript coercion of a number to a property key (`String(n)`,
ECMA-262 `Number::toString` with radix 10): `"NaN"` for NaN, signed
`"Infinity"` for the infinities, and for a finite integral double the
shortest round-tripping decimal — positional below `10 ^ 21`, exponential
from `10 ^ 21` on.  `String(-0)` is `"0"`. -/
def jsNumKey : JsNum → String
  | .nan => "NaN"
  | .inf true => "-Infinity"
  | .inf false => "Infinity"
  | .int n =>
    if n = 0 then "0"
    else
      let a := n.natAbs
      let d := shortestDecGo a ((Nat.repr a).length) ((Nat.repr a).length + 1) 1
      let core := if d < 10 ^ 21 then Nat.repr d else expRender d
      if n < 0 then "-" ++ core else core

/-- `take()` (set.ts lines 91-99): throws `'cannot take from an empty
set'` on an empty set; otherwise runs `parseInt` on the first enumerated
key and reads `this._items[first]`, the entry stored under `String` of
that number.  `remove(result)` follows: on a hit it deletes the returned
entry.  On a miss `result` is `undefined` and `remove(undefined)` applies
the set's identifier to `undefined`: the `undefKey` parameter is the
property key `String(getIdentifier(undefined))` when that call returns —
`"undefined"` for `StringSet`, whose identifier is the identity — and
`none` when the identifier dereferences its argument and throws a
`TypeError` (as the number- and location-keyed identifiers do);
`has`/`delete` then drop every entry stored under that key. -/
def setTake {T : Type} (k : T → String) (undefKey : Option String) (l : JSet T) :
    Except String (Option T × JSet T) :=
  match l with
  | [] => .error ("cannot take from an empty set")
  | x :: _ =>
    let first := jsParseInt (k x)
    match l.find? (fun y => k y = jsNumKey first) with
    | some r => .ok (some r, setRemove k l r)
    | none =>
      match undefKey with
      | none => .error ("TypeError")
      | some u => .ok (none, l.filter (fun y => k y ≠ u))

/-! ## Source locations (src/python-parser.ts, src/slice.ts) -/

/-- A source range plus the optional `path` tag attached by the program
builder (python-parser.ts lines 76-86). -/
structure Location where
  first_line : Int
  first_column : Int
  last_line : Int
  last_column : Int
  path : Option String := none
deriving DecidableEq, Repr

/-- Rendering of an optional path the way JS template literals render
`undefined`. -/
def jsPathString : Option String → String
  | none => "undefined"
  | some p => p

/-- `locationString` (python-parser.ts lines 88-90).  The source renders
`loc.last_line` in the position where `first_line` would be expected; the
embedding reproduces that faithfully. -/
def locationString (loc : Location) : String :=
  jsPathString loc.path ++ toString loc.last_line ++ ":" ++ toString loc.first_column
    ++ "-" ++ toString loc.last_line ++ ":" ++ toString loc.last_column

/-- Identifier used by `LocationSet` (slice.ts lines 87-95):
`[first_line, first_column, last_line, last_column].toString()`. -/
def locKey (l : Location) : String :=
  toString l.first_line ++ "," ++ toString l.first_column ++ ","
    ++ toString l.last_line ++ "," ++ toString l.last_column

/-- `within(inner, outer)` (slice.ts lines 97-107): `outer` textually
encloses `inner`. -/
def within (inner outer : Location) : Bool :=
  (decide (outer.first_line < inner.first_line) ||
    (decide (outer.first_line = inner.first_line) &&
      decide (outer.first_column ≤ inner.first_column))) &&
  (decide (outer.last_line > inner.last_line) ||
    (decide (outer.last_line = inner.last_line) &&
      decide (outer.last_column ≥ inner.last_column)))

/-- `isPositionBetween` (slice.ts lines 109-121). -/
def isPositionBetween (line column start_line start_column end_line end_column : Int) : Bool :=
  (decide (line > start_line) ||
    (decide (line = start_line) && decide (column ≥ start_column))) &&
  (decide (line < end_line) ||
    (decide (line = end_line) && decide (column ≤ end_column)))

/-- `intersect(l1, l2)` (slice.ts lines 123-144): textual overlap or nesting. -/
def locIntersect (l1 l2 : Location) : Bool :=
  isPositionBetween l1.first_line l1.first_column l2.first_line l2.first_column
      l2.last_line l2.last_column ||
  isPositionBetween l1.last_line l1.last_column l2.first_line l2.first_column
      l2.last_line l2.last_column ||
  within l1 l2 || within l2 l1

/-! ## The slicer closure (src/slice.ts, `slice`, lines 153-189)

`slice` builds a CFG, runs the dataflow analyzer, seeds the accepted set
with the statement locations intersecting the seeds, and then closes the
set under the dataflow edges.  The CFG builder and the analyzer are
collaborators; the closure below is parameterised by their outputs: the
seed-statement locations (`findSeedStatementLocations`) and the dataflow
edges (each carrying the `fromNode` and `toNode` statement locations). -/

/-- A dataflow edge as the closure consumes it: the locations of its
`fromNode` and `toNode` statements. -/
structure FlowLoc where
  fromLoc : Location
  toLoc : Location
deriving DecidableEq, Repr

inductive SliceDirection where
  | Forward
  | Backward
deriving DecidableEq, Repr

/-- `acceptLocation` (slice.ts lines 164-168): with seeds, accept locations
intersecting some seed-statement location; with no seeds accept all. -/
def acceptLocation (seedStmtLocs : Option (JSet Location)) (loc : Location) : Bool :=
  match seedStmtLocs with
  | some seeds => setSome (fun s => locIntersect s loc) seeds
  | none => true

/-- The body of the closure's `for (let flow of dfa.items)` loop
(slice.ts lines 175-185), transcribed from the source: destructure
`[start, end]` by direction, add `end` when accepted, then add `start`
when some already-accepted location encloses `end`. -/
def sliceFlowStep (seedStmtLocs : Option (JSet Location)) (direction : SliceDirection)
    (s : JSet Location) (flow : FlowLoc) : JSet Location :=
  let startEnd :=
    match direction with
    | .Backward => (flow.fromLoc, flow.toLoc)
    | .Forward => (flow.toLoc, flow.fromLoc)
  let s1 := if acceptLocation seedStmtLocs startEnd.2 then setAdd locKey s [startEnd.2] else s
  if setSome (fun loc => within startEnd.2 loc) s1 then setAdd locKey s1 [startEnd.1] else s1

/-- One pass of the `do`-loop over all dataflow edges. -/
def slicePass (seedStmtLocs : Option (JSet Location)) (direction : SliceDirection)
    (dfa : List FlowLoc) (s : JSet Location) : JSet Location :=
  dfa.foldl (sliceFlowStep seedStmtLocs direction) s

/-- The `do ... while (sliceLocations.size > lastSize)` loop (slice.ts
lines 172-186).  The source loop terminates because a repeated pass either
adds one of the finitely many edge-endpoint locations or reaches a fixed
point; the fuel counts the remaining permitted growth steps. -/
def sliceLoop (seedStmtLocs : Option (JSet Location)) (direction : SliceDirection)
    (dfa : List FlowLoc) : Nat → JSet Location → JSet Location
  | 0, s => s
  | fuel + 1, s =>
    let s1 := slicePass seedStmtLocs direction dfa s
    if setSize s1 > setSize s then sliceLoop seedStmtLocs direction dfa fuel s1 else s1

/-- The closure phase of `slice` (slice.ts lines 163-188): the accepted set
starts as the seed-statement locations and is closed under the dataflow
edges.  Each productive pass adds at least one location drawn from the seed
statements or the edge endpoints, so `2·|dfa| + |seeds| + 1` passes reach
the fixed point. -/
def sliceClosure (seedStmtLocs : Option (JSet Location)) (dfa : List FlowLoc)
    (direction : SliceDirection) : JSet Location :=
  let s0 : JSet Location :=
    match seedStmtLocs with
    | some seeds => mkSet locKey seeds
    | none => []
  sliceLoop seedStmtLocs direction dfa (2 * dfa.length + setSize s0 + 1) s0

/-- Modelled from the claim's words, for comparison with `sliceClosure`:
the same closure but reading `start = t.location, end = f.location` for an
edge `f → t` in backward mode, and the swap in forward mode. -/
def sliceFlowStepClaim (seedStmtLocs : Option (JSet Location)) (direction : SliceDirection)
    (s : JSet Location) (flow : FlowLoc) : JSet Location :=
  let startEnd :=
    match direction with
    | .Backward => (flow.toLoc, flow.fromLoc)
    | .Forward => (flow.fromLoc, flow.toLoc)
  let s1 := if acceptLocation seedStmtLocs startEnd.2 then setAdd locKey s [startEnd.2] else s
  if setSome (fun loc => within startEnd.2 loc) s1 then setAdd locKey s1 [startEnd.1] else s1

/-- The `do`-loop under the claim's reading of start and end. -/
def sliceClaimLoop (seedStmtLocs : Option (JSet Location)) (direction : SliceDirection)
    (dfa : List FlowLoc) : Nat → JSet Location → JSet Location
  | 0, s => s
  | fuel + 1, s =>
    let s1 := dfa.foldl (sliceFlowStepClaim seedStmtLocs direction) s
    if setSize s1 > setSize s then sliceClaimLoop seedStmtLocs direction dfa fuel s1 else s1

/-- The closure as the claim describes it (start/end swapped). -/
def sliceClosureClaim (seedStmtLocs : Option (JSet Location)) (dfa : List FlowLoc)
    (direction : SliceDirection) : JSet Location :=
  let s0 : JSet Location :=
    match seedStmtLocs with
    | some seeds => mkSet locKey seeds
    | none => []
  sliceClaimLoop seedStmtLocs direction dfa (2 * dfa.length + setSize s0 + 1) s0

/-- The amended description of the per-edge step: for an edge `f → t`,
backward mode reads `start = f.location, end = t.location` (swapped in
forward mode); `end` is added whenever it intersects some seed-statement
location (or unconditionally when no seeds were given), and `start` is
added whenever some already-accepted location encloses `end`. -/
def sliceFlowStepAmended (seedStmtLocs : Option (JSet Location)) (direction : SliceDirection)
    (s : JSet Location) (flow : FlowLoc) : JSet Location :=
  let e := if direction = SliceDirection.Backward then flow.toLoc else flow.fromLoc
  let st := if direction = SliceDirection.Backward then flow.fromLoc else flow.toLoc
  let accepted :=
    match seedStmtLocs with
    | some seeds => seeds.any (fun sl => locIntersect sl e)
    | none => true
  let s1 := if accepted then setAdd locKey s [e] else s
  if s1.any (fun loc => within e loc) then setAdd locKey s1 [st] else s1

/-- The `do`-loop under the amended reading. -/
def sliceLoopAmended (seedStmtLocs : Option (JSet Location)) (direction : SliceDirection)
    (dfa : List FlowLoc) : Nat → JSet Location → JSet Location
  | 0, s => s
  | fuel + 1, s =>
    let s1 := dfa.foldl (sliceFlowStepAmended seedStmtLocs direction) s
    if setSize s1 > setSize s then sliceLoopAmended seedStmtLocs direction dfa fuel s1 else s1

/-- The closure as the amended claim describes it. -/
def sliceClosureAmended (seedStmtLocs : Option (JSet Location)) (dfa : List FlowLoc)
    (direction : SliceDirection) : JSet Location :=
  let s0 : JSet Location :=
    match seedStmtLocs with
    | some seeds => mkSet locKey seeds
    | none => []
  sliceLoopAmended seedStmtLocs direction dfa (2 * dfa.length + setSize s0 + 1) s0

/-! ## Parse-tree nodes (src/python-parser.ts)

The parser is a collaborator (spec section 6); the analyses only
discriminate on the node's `type` tag and read a handful of fields.  A
single record-like node shape carries the fields the embedded analyses
consult; `walk` is the collaborator's preorder traversal. -/

/-- An `import`/`from` entry: `{path, name, location}` (python-parser.ts).
`name` is the alias and may be absent. -/
structure ImportName where
  path : String
  name : Option String := none
  location : Location :=
    { first_line := 0, first_column := 0, last_line := 0, last_column := 0 }
deriving DecidableEq, Repr

/-- A parse-tree node: the `type` tag, the source location, the
`decl_location` of `for` nodes, the `name`/`id` field of def/class/name
nodes, parameter names of `def` nodes (a parameter's name may be absent),
the `base`/`names`/`imports` fields of import statements, the `op` and
`targets`/`sources` of assignments, and the remaining child subtrees
(bodies, operands, call arguments, ...). -/
inductive SyntaxNode : Type where
  | node (ty : String) (location : Location) (declLocation : Option Location)
      (name : String) (params : List (Option String)) (base : String)
      (names imports : List ImportName) (op : Option String)
      (targets sources children : List SyntaxNode)
deriving Repr

def SyntaxNode.ty : SyntaxNode → String
  | .node t _ _ _ _ _ _ _ _ _ _ _ => t

def SyntaxNode.location : SyntaxNode → Location
  | .node _ l _ _ _ _ _ _ _ _ _ _ => l

def SyntaxNode.declLocation : SyntaxNode → Option Location
  | .node _ _ d _ _ _ _ _ _ _ _ _ => d

def SyntaxNode.name : SyntaxNode → String
  | .node _ _ _ n _ _ _ _ _ _ _ _ => n

def SyntaxNode.params : SyntaxNode → List (Option String)
  | .node _ _ _ _ p _ _ _ _ _ _ _ => p

def SyntaxNode.base : SyntaxNode → String
  | .node _ _ _ _ _ b _ _ _ _ _ _ => b

def SyntaxNode.names : SyntaxNode → List ImportName
  | .node _ _ _ _ _ _ ns _ _ _ _ _ => ns

def SyntaxNode.imports : SyntaxNode → List ImportName
  | .node _ _ _ _ _ _ _ im _ _ _ _ => im

def SyntaxNode.op : SyntaxNode → Option String
  | .node _ _ _ _ _ _ _ _ o _ _ _ => o

def SyntaxNode.targets : SyntaxNode → List SyntaxNode
  | .node _ _ _ _ _ _ _ _ _ t _ _ => t

def SyntaxNode.sources : SyntaxNode → List SyntaxNode
  | .node _ _ _ _ _ _ _ _ _ _ s _ => s

def SyntaxNode.children : SyntaxNode → List SyntaxNode
  | .node _ _ _ _ _ _ _ _ _ _ _ c => c

/-- All subtree lists of a node, in walk order. -/
def SyntaxNode.subNodes (n : SyntaxNode) : List SyntaxNode :=
  n.targets ++ n.sources ++ n.children

mutual

/-- Preorder traversal (`ast.walk`), covering assignment targets and
sources as well as the other children. -/
def walkNode : SyntaxNode → List SyntaxNode
  | .node t l d n p b ns im o tg src c =>
    SyntaxNode.node t l d n p b ns im o tg src c :: (walkNodes tg ++ walkNodes src ++ walkNodes c)

/-- Preorder traversal of a forest. -/
def walkNodes : List SyntaxNode → List SyntaxNode
  | [] => []
  | x :: xs => walkNode x ++ walkNodes xs

end

/-! ## References and reference kinds (src/unnamed/part_000, lines 283-341) -/

/-- `ReferenceType` (part_000 lines 289-293); the enum's values are the
strings used in set identifiers. -/
inductive ReferenceType where
  | DEFINITION
  | UPDATE
  | USE
deriving DecidableEq, Repr

/-- The enum value string. -/
def refTypeStr : ReferenceType → String
  | .DEFINITION => "DEFINITION"
  | .UPDATE => "UPDATE"
  | .USE => "USE"

/-- `Object.keys(ReferenceType)` in declaration order. -/
def referenceTypes : List ReferenceType :=
  [.DEFINITION, .UPDATE, .USE]

/-- `SymbolType` (part_000 lines 296-303). -/
inductive SymbolType where
  | VARIABLE
  | CLASS
  | FUNCTION
  | IMPORT
  | MUTATION
  | MAGIC
deriving DecidableEq, Repr

/-- A reference (part_000 lines 306-313).  `inferredType` is a pointer to a
type spec; the embedding flattens the pointer to the type's name, which
identifies it in the enclosing module's `types` map. -/
structure Ref where
  type : SymbolType
  level : ReferenceType
  name : String
  inferredType : Option String := none
  location : Location
  statement : SyntaxNode

/-- The `RefSet` identifier (part_000 line 318):
`r.name + r.level + ast.locationString(r.location)`. -/
def refKey (r : Ref) : String :=
  r.name ++ refTypeStr r.level ++ locationString r.location

/-- `DefUse` (part_000 lines 8-13): one ref-set per reference kind. -/
structure DefUse where
  DEFINITION : JSet Ref := []
  UPDATE : JSet Ref := []
  USE : JSet Ref := []

/-- Component access by reference kind (the source indexes `this[level]`). -/
def duGet (d : DefUse) : ReferenceType → JSet Ref
  | .DEFINITION => d.DEFINITION
  | .UPDATE => d.UPDATE
  | .USE => d.USE

/-- Component replacement by reference kind. -/
def duSet (d : DefUse) : ReferenceType → JSet Ref → DefUse
  | .DEFINITION, v => { d with DEFINITION := v }
  | .UPDATE, v => { d with UPDATE := v }
  | .USE, v => { d with USE := v }

/-- `defs` (part_000 line 15): `DEFINITION.union(UPDATE)`. -/
def duDefs (d : DefUse) : JSet Ref :=
  setUnion refKey d.DEFINITION d.UPDATE

/-- `union` (part_000 lines 17-22): componentwise set union. -/
def duUnion (a b : DefUse) : DefUse :=
  { DEFINITION := setUnion refKey a.DEFINITION b.DEFINITION
    UPDATE := setUnion refKey a.UPDATE b.UPDATE
    USE := setUnion refKey a.USE b.USE }

/-- `equals` (part_000 lines 58-62): componentwise keyed-set equality. -/
def duEquals (a b : DefUse) : Bool :=
  setEquals refKey a.DEFINITION b.DEFINITION &&
    setEquals refKey a.UPDATE b.UPDATE &&
    setEquals refKey a.USE b.USE

/-- `GEN_RULES` (part_000 lines 26-30): which kinds of the statement's new
refs are genned into each component. -/
def genRules : ReferenceType → List ReferenceType
  | .USE => [.UPDATE, .DEFINITION]
  | .UPDATE => [.DEFINITION]
  | .DEFINITION => []

/-- `KILL_RULES` (part_000 lines 32-42): which kinds of old refs a genned
ref of a given kind kills. -/
def killRules : ReferenceType → List ReferenceType
  | .DEFINITION => [.DEFINITION, .UPDATE]
  | .UPDATE => [.DEFINITION, .UPDATE]
  | .USE => []

/-- The gen set for one component (part_000 lines 46-49): the union of the
new refs' components named by `GEN_RULES[level]`. -/
def genSetFor (newRefs : DefUse) (level : ReferenceType) : JSet Ref :=
  (genRules level).foldl (fun g gl => setUnion refKey g (duGet newRefs gl)) []

/-- One iteration of `update`'s per-level loop (part_000 lines 46-54):
compute the gen set, kill the old refs a genned ref of permitted kind
shares a name with, and store `(old \ kill) ∪ gen`. -/
def duUpdateLevel (d : DefUse) (newRefs : DefUse) (level : ReferenceType) : DefUse :=
  let genSet := genSetFor newRefs level
  let killSet := setFilter refKey
    (fun dref => genSet.any
      (fun g => decide (g.name = dref.name) && (killRules g.level).contains dref.level))
    (duGet d level)
  duSet d level (setUnion refKey (setMinus refKey (duGet d level) killSet) genSet)

/-- `update(newRefs)` (part_000 lines 24-56): apply the gen/kill transfer
to every component, in `Object.keys(ReferenceType)` order. -/
def duUpdate (d newRefs : DefUse) : DefUse :=
  referenceTypes.foldl (fun acc level => duUpdateLevel acc newRefs level) d

/-- Every component is a well-formed keyed set. -/
def DefUseWF (d : DefUse) : Prop :=
  SetWF refKey d.DEFINITION ∧ SetWF refKey d.UPDATE ∧ SetWF refKey d.USE

instance (d : DefUse) : Decidable (DefUseWF d) := by
  unfold DefUseWF; infer_instance

/-! ## Dataflow edges (part_000 lines 283-286, 561-583) -/

/-- A dataflow edge between two statements. -/
structure Dataflow where
  fromNode : SyntaxNode
  toNode : SyntaxNode

/-- `getDataflowId` (part_000 lines 561-565). -/
def dataflowKey (df : Dataflow) : String :=
  locationString df.fromNode.location ++ "->" ++ locationString df.toNode.location

/-- `createFlowsFrom` (part_000 lines 569-583): for each reference kind,
connect every ref of the statement to every same-named incoming ref of the
same kind; the statement refs so connected are the newly "defined" ones. -/
def createFlowsFrom (fromSet toSet : DefUse) (fromStatement : SyntaxNode) :
    JSet Dataflow × JSet Ref :=
  referenceTypes.foldl
    (fun acc level =>
      (duGet fromSet level).foldl
        (fun acc fr =>
          (duGet toSet level).foldl
            (fun acc toR =>
              if toR.name = fr.name then
                (setAdd dataflowKey acc.1 [{ fromNode := toR.statement, toNode := fromStatement }],
                  setAdd refKey acc.2 [fr])
              else acc)
            acc)
        acc)
    (([] : JSet Dataflow), ([] : JSet Ref))

/-! ## Library specs and the symbol table (src/symbol-table.ts)

The `specs` module (`FunctionSpec`, `TypeSpec`, `ModuleSpec`, `JsonSpecs`)
that symbol-table.ts imports is not part of the snapshot.  Modelled from
the spec: a module spec holds function specs, a `types` map of type specs
(each a list of method specs) and nested module specs; a function spec has
a name, optional `updates`/`reads` lists of parameter positions or global
names, an optional return-type name and an optional resolved `returnsType`
pointer (flattened here to the type's name); a string-only function entry
abbreviates `{name, reads: [], updates: []}`. -/

/-- An `updates`/`reads` entry: a parameter position or a global name. -/
inductive SpecVal where
  | num (i : Int)
  | str (s : String)
deriving DecidableEq, Repr

/-- A normalised function spec. -/
structure FunctionSpecR where
  name : String
  updates : List SpecVal := []
  reads : List SpecVal := []
  returns : Option String := none
  returnsType : Option String := none
deriving DecidableEq, Repr

/-- A raw function spec as read from JSON (lists may be absent). -/
structure FunctionSpecRaw where
  name : String
  updates : Option (List SpecVal) := none
  reads : Option (List SpecVal) := none
  returns : Option String := none
deriving DecidableEq, Repr

/-- A raw function description: a bare name string or a spec object. -/
inductive FunctionDescR where
  | str (s : String)
  | desc (f : FunctionSpecRaw)
deriving DecidableEq, Repr

/-- A raw type spec: its method list may be absent. -/
structure TypeSpecRaw where
  methods : Option (List FunctionDescR) := none
deriving DecidableEq, Repr

/-- A normalised type spec. -/
structure TypeSpecR where
  methods : List FunctionSpecR := []
deriving DecidableEq, Repr

/-- A raw module spec tree. -/
inductive ModuleSpecRaw : Type where
  | mk (functions : Option (List FunctionDescR))
      (types : Option (List (String × TypeSpecRaw)))
      (modules : Option (List (String × ModuleSpecRaw)))
deriving Repr

def ModuleSpecRaw.functions : ModuleSpecRaw → Option (List FunctionDescR)
  | .mk f _ _ => f

def ModuleSpecRaw.types : ModuleSpecRaw → Option (List (String × TypeSpecRaw))
  | .mk _ t _ => t

def ModuleSpecRaw.modules : ModuleSpecRaw → Option (List (String × ModuleSpecRaw))
  | .mk _ _ m => m

/-- A normalised module spec. -/
structure ModuleSpecR where
  functions : List FunctionSpecR := []
  types : List (String × TypeSpecR) := []
deriving DecidableEq, Repr

/-- The JSON spec bundle: a raw module map. -/
abbrev JsonSpecs := List (String × ModuleSpecRaw)

/-- JS-object / JS-map lookup in an association list. -/
def assocLookup {K A : Type} [DecidableEq K] (l : List (K × A)) (key : K) : Option A :=
  (l.find? (fun p => p.1 = key)).map Prod.snd

/-- JS-object / JS-map store: overwrite in place or append. -/
def assocStore {K A : Type} [DecidableEq K] (l : List (K × A)) (key : K) (v : A) : List (K × A) :=
  if l.any (fun p => p.1 = key) then l.map (fun p => if p.1 = key then (key, v) else p)
  else l ++ [(key, v)]

/-- `cleanFunc` (symbol-table.ts lines 11-19). -/
def cleanFunc : FunctionDescR → FunctionSpecR
  | .str s => { name := s }
  | .desc f =>
    { name := f.name
      updates := f.updates.getD []
      reads := f.reads.getD []
      returns := f.returns }

/-- `cleanType` (symbol-table.ts lines 21-25). -/
def cleanType (t : TypeSpecRaw) : TypeSpecR :=
  { methods := (t.methods.getD []).map cleanFunc }

/-- `returnsType` resolution (symbol-table.ts lines 33-41): point a
function spec at the enclosing module's type of its `returns` name, when
that type exists. -/
def resolveReturns (types : List (String × TypeSpecR)) (f : FunctionSpecR) : FunctionSpecR :=
  match f.returns with
  | none => f
  | some r =>
    match assocLookup types r with
    | some _ => { f with returnsType := some r }
    | none => { f with returnsType := none }

/-- `cleanModule` (symbol-table.ts lines 27-43), without the nested-module
recursion: normalise the function list and `types` map and resolve
return types.  (`lookupSpec` descends the raw nested-module maps itself,
so the nested modules of a cleaned spec are never consulted and are not
retained.) -/
def cleanModule (m : ModuleSpecRaw) : ModuleSpecR :=
  let types := (m.types.getD []).map (fun p => (p.1, cleanType p.2))
  let functions := (m.functions.getD []).map cleanFunc
  let types2 := types.map (fun p => (p.1, { methods := p.2.methods.map (resolveReturns types) }))
  { functions := functions.map (resolveReturns types), types := types2 }

/-- `SymbolTable` (symbol-table.ts lines 45-53). -/
structure SymbolTable where
  jsonSpecs : JsonSpecs
  modules : List (String × ModuleSpecR) := []
  types : List (String × TypeSpecR) := []
  functions : List (String × FunctionSpecR) := []

/-- `lookupSpec` (symbol-table.ts lines 115-124): walk the raw module maps
down a dotted path, cleaning the final module. -/
def lookupSpec : JsonSpecs → List String → Option ModuleSpecR
  | _, [] => none
  | map, [p] => (assocLookup map p).map cleanModule
  | map, p :: rest =>
    match assocLookup map p with
    | none => none
    | some spec => lookupSpec (spec.modules.getD []) rest

/-- `importModule(modulePath, alias)` (symbol-table.ts lines 77-89): on
success register the module under the full path, and under the alias when
one is given; on failure log a warning and change nothing. -/
def importModule (st : SymbolTable) (modulePath : String) (aliasName : Option String) : SymbolTable :=
  match lookupSpec st.jsonSpecs (modulePath.splitOn ".") with
  | none => st
  | some spec =>
    if modulePath ≠ "" then
      let st1 := { st with modules := assocStore st.modules modulePath spec }
      match aliasName with
      | some a => if a ≠ "" then { st1 with modules := assocStore st1.modules a spec } else st1
      | none => st1
    else st

/-- `importModuleDefinitions(namePath, imports)` (symbol-table.ts lines
91-113): a `*` import registers every function and type of the module;
otherwise the named type, or else the named function, is registered. -/
def importModuleDefinitions (st : SymbolTable) (namePath : String)
    (imports : List ImportName) : SymbolTable :=
  match lookupSpec st.jsonSpecs (namePath.splitOn ".") with
  | none => st
  | some spec =>
    imports.foldl
      (fun st imp =>
        let funs := spec.functions
        if imp.path = "*" then
          let st1 := funs.foldl (fun st f => { st with functions := assocStore st.functions f.name f }) st
          spec.types.foldl (fun st p => { st with types := assocStore st.types p.1 p.2 }) st1
        else
          match imp.name with
          | none => st
          | some nm =>
            match assocLookup spec.types nm with
            | some ty => { st with types := assocStore st.types nm ty }
            | none =>
              match funs.find? (fun f => f.name = nm) with
              | some fspec => { st with functions := assocStore st.functions fspec.name fspec }
              | none => st)
      st

/-- The constructor (symbol-table.ts lines 50-53): preload the
`__builtins__` module's definitions. -/
def mkSymbolTable (jsonSpecs : JsonSpecs) : SymbolTable :=
  importModuleDefinitions { jsonSpecs := jsonSpecs } "__builtins__" [{ path := "*", name := some "" }]

/-- `lookupFunction(name)` (symbol-table.ts lines 55-64): a known function,
or a known type's `__init__` (or a synthetic constructor spec updating the
receiver), or nothing. -/
def lookupFunction (st : SymbolTable) (name : String) : Option FunctionSpecR :=
  match assocLookup st.functions name with
  | some spec => some spec
  | none =>
    match assocLookup st.types name with
    | some clss =>
      match clss.methods.find? (fun fn => fn.name = "__init__") with
      | some fn => some fn
      | none => some { name := "__init__", updates := [SpecVal.str "0"],
                       returns := some name, returnsType := some name }
    | none => none

/-- `lookupModuleFunction(modName, funcName)` (symbol-table.ts lines 72-75). -/
def lookupModuleFunction (st : SymbolTable) (modName funcName : String) : Option FunctionSpecR :=
  match assocLookup st.modules modName with
  | some mod => mod.functions.find? (fun f => f.name = funcName)
  | none => none

/-! ## The dataflow analyzer (src/unnamed/part_000, `DataflowAnalyzer`)

The analyzer instance owns the symbol table and the per-statement def/use
cache; both are threaded explicitly.  The un-cached body of
`getDefUseForStatement` (part_000 lines 84-90: `getDefs`, `getUses`, and
the split of the def set by level) walks the statement's subtree through
the collaborator tree walker; the analyzer definitions below take it as a
`compute` parameter, which may fail the way a JS exception would. -/

/-- The mutable state of a `DataflowAnalyzer`: `_defUsesCache` and the
symbol table shared by an `analyze` run. -/
structure AnalyzerState where
  cache : List (String × DefUse) := []
  symtab : SymbolTable

/-- The un-cached per-statement def/use computation, abstracted:
`getDefs` plus `getUses` plus the level split. -/
abbrev ComputeDefUse :=
  SyntaxNode → JSet Ref → AnalyzerState → Except String (DefUse × AnalyzerState)

/-- `getDefUseForStatement` (part_000 lines 77-93): key the cache by the
statement's canonical location string; on a hit return the cached triple,
otherwise compute, store, and return. -/
def getDefUseForStatement (compute : ComputeDefUse) (st : AnalyzerState)
    (statement : SyntaxNode) (defsForMethodResolution : JSet Ref) :
    Except String (DefUse × AnalyzerState) :=
  let cacheKey := locationString statement.location
  match assocLookup st.cache cacheKey with
  | some cached => .ok (cached, st)
  | none =>
    match compute statement defsForMethodResolution st with
    | .error e => .error e
    | .ok (result, st1) =>
      .ok (result, { st1 with cache := assocStore st1.cache cacheKey result })

/-! ### Control-flow graph (collaborator, src/control-flow.ts is not in
the snapshot).  Modelled from the spec: a CFG exposes `blocks`, each a
sequence of statements with an id, and predecessor/successor edges. -/

/-- A basic block. -/
structure Block where
  id : Nat
  statements : List SyntaxNode

/-- A control-flow graph: blocks plus directed edges between block ids. -/
structure Cfg where
  blocks : List Block
  edges : List (Nat × Nat)

/-- `cfg.getPredecessors(block)`. -/
def cfgPredecessors (cfg : Cfg) (b : Block) : List Block :=
  cfg.blocks.filter (fun p => cfg.edges.contains (p.id, b.id))

/-- `cfg.getSuccessors(block)`. -/
def cfgSuccessors (cfg : Cfg) (b : Block) : List Block :=
  cfg.blocks.filter (fun s => cfg.edges.contains (b.id, s.id))

/-- The loop state of `analyze` (part_000 lines 97-101). -/
structure AnalyzeLoopState where
  workQueue : List Block
  defUsePerBlock : List (Nat × DefUse)
  undefinedRefs : JSet Ref
  dataflows : JSet Dataflow

/-- The `for (let statement of block.statements)` body (part_000 lines
108-114): fetch the statement's def/use, record the new flows, extend the
undefined refs with the statement's updates and uses minus the refs professed
defined by the new flows, and apply the gen/kill transfer to the running
block state. -/
def analyzeStatement (compute : ComputeDefUse) (st : AnalyzerState)
    (acc : JSet Dataflow × JSet Ref × DefUse) (statement : SyntaxNode) :
    Except String (JSet Dataflow × JSet Ref × DefUse × AnalyzerState) :=
  match getDefUseForStatement compute st statement (duDefs acc.2.2) with
  | .error e => .error e
  | .ok (statementDefUse, st1) =>
    let flows := createFlowsFrom statementDefUse acc.2.2 statement
    let dataflows := setUnion dataflowKey acc.1 flows.1
    let undefinedRefs :=
      setMinus refKey
        (setUnion refKey (setUnion refKey acc.2.1 statementDefUse.UPDATE) statementDefUse.USE)
        flows.2
    let blockDefUse := duUpdate acc.2.2 statementDefUse
    .ok (dataflows, undefinedRefs, blockDefUse, st1)

/-- Fold `analyzeStatement` over a block's statements. -/
def analyzeStatements (compute : ComputeDefUse) :
    List SyntaxNode → AnalyzerState → JSet Dataflow × JSet Ref × DefUse →
    Except String (JSet Dataflow × JSet Ref × DefUse × AnalyzerState)
  | [], st, acc => .ok (acc.1, acc.2.1, acc.2.2, st)
  | stmt :: rest, st, acc =>
    match analyzeStatement compute st acc stmt with
    | .error e => .error e
    | .ok (dataflows, undefinedRefs, blockDefUse, st1) =>
      analyzeStatements compute rest st1 (dataflows, undefinedRefs, blockDefUse)

/-- The `while (workQueue.length)` loop of `analyze` (part_000 lines
102-125): pop a block off the stack, merge the predecessors' triples into
its old triple, process its statements, and re-queue its successors when
the triple changed.  The fixed point terminates because the triples only
grow (spec section 8); the fuel counts the remaining iterations. -/
def analyzeLoop (compute : ComputeDefUse) (cfg : Cfg) :
    Nat → AnalyzerState → AnalyzeLoopState → Except String (AnalyzeLoopState × AnalyzerState)
  | 0, st, s => .ok (s, st)
  | fuel + 1, st, s =>
    match s.workQueue.getLast? with
    | none => .ok (s, st)
    | some block =>
      let workQueue := s.workQueue.dropLast
      let oldBlockDefUse := (assocLookup s.defUsePerBlock block.id).getD {}
      let blockDefUse := (cfgPredecessors cfg block).foldl
        (fun defuse predBlock => duUnion defuse ((assocLookup s.defUsePerBlock predBlock.id).getD {}))
        oldBlockDefUse
      match analyzeStatements compute block.statements st (s.dataflows, s.undefinedRefs, blockDefUse) with
      | .error e => .error e
      | .ok (dataflows, undefinedRefs, blockDefUse, st1) =>
        if ¬ duEquals oldBlockDefUse blockDefUse then
          let defUsePerBlock := assocStore s.defUsePerBlock block.id blockDefUse
          let workQueue := (cfgSuccessors cfg block).foldl
            (fun q succ => if q.any (fun b => b.id = succ.id) then q else q ++ [succ])
            workQueue
          analyzeLoop compute cfg fuel st1
            { workQueue := workQueue, defUsePerBlock := defUsePerBlock,
              undefinedRefs := undefinedRefs, dataflows := dataflows }
        else
          analyzeLoop compute cfg fuel st1
            { workQueue := workQueue, defUsePerBlock := s.defUsePerBlock,
              undefinedRefs := undefinedRefs, dataflows := dataflows }

/-- The result record of `analyze` (part_000 lines 586-589). -/
structure DataflowAnalysisResult where
  dataflows : JSet Dataflow
  undefinedRefs : JSet Ref

/-- Modelled from the spec: `StringSet` membership, the meaning of the
`namesDefined.contains` call at part_000 line 128 (the snapshot's set.ts
spells the membership test `has`; section 4.A lists it as a keyed-set
membership operation). -/
def stringSetContains (l : JSet String) (s : String) : Bool :=
  l.any (fun x => x = s)

/-- `analyze(cfg, moduleMap?, namesDefined?)` (part_000 lines 95-132):
worklist fixed point over the blocks (stacked in reverse), then drop every
undefined ref whose name was declared defined on entry. -/
def analyze (compute : ComputeDefUse) (fuel : Nat) (cfg : Cfg) (jsonSpecs : JsonSpecs)
    (namesDefined : Option (JSet String)) (cache : List (String × DefUse)) :
    Except String (DataflowAnalysisResult × AnalyzerState) :=
  let st : AnalyzerState := { cache := cache, symtab := mkSymbolTable jsonSpecs }
  let s0 : AnalyzeLoopState :=
    { workQueue := cfg.blocks.reverse
      defUsePerBlock := cfg.blocks.reverse.map (fun b => (b.id, ({} : DefUse)))
      undefinedRefs := []
      dataflows := [] }
  match analyzeLoop compute cfg fuel st s0 with
  | .error e => .error e
  | .ok (s, st1) =>
    let undefinedRefs :=
      match namesDefined with
      | some names => setFilter refKey (fun r => ¬ stringSetContains names r.name) s.undefinedRefs
      | none => s.undefinedRefs
    .ok ({ dataflows := s.dataflows, undefinedRefs := undefinedRefs }, st1)

/-! ### Per-statement defs (part_000, `getDefs` and friends) -/

/-- `getFuncDefs(funcDecl)` (part_000 lines 170-178): a single
Function/Definition reference named after the function.  The method takes
no symbol table and registers nothing. -/
def getFuncDefs (funcDecl : SyntaxNode) : JSet Ref :=
  mkSet refKey
    [{ type := SymbolType.FUNCTION
       level := ReferenceType.DEFINITION
       name := funcDecl.name
       location := funcDecl.location
       statement := funcDecl }]

/-- `getClassDefs(classDecl)` (part_000 lines 160-168). -/
def getClassDefs (classDecl : SyntaxNode) : JSet Ref :=
  mkSet refKey
    [{ type := SymbolType.CLASS
       level := ReferenceType.DEFINITION
       name := classDecl.name
       location := classDecl.location
       statement := classDecl }]

/-- JS `i.name || i.path`: the alias when present and non-empty, else the
path. -/
def importNameOrPath (i : ImportName) : String :=
  match i.name with
  | some n => if n = "" then i.path else n
  | none => i.path

/-- `getImportDefs(imprt, symbolTable)` (part_000 lines 198-211): import
each named module into the symbol table and return one Import/Definition
ref per imported name. -/
def getImportDefs (imprt : SyntaxNode) (symbolTable : SymbolTable) : JSet Ref × SymbolTable :=
  let st1 := imprt.names.foldl (fun st imp => importModule st imp.path imp.name) symbolTable
  (mkSet refKey
    (imprt.names.map (fun nameNode =>
      { type := SymbolType.IMPORT
        level := ReferenceType.DEFINITION
        name := importNameOrPath nameNode
        location := nameNode.location
        statement := imprt })), st1)

/-- `getImportFromDefs(from, symbolTable)` (part_000 lines 185-196). -/
def getImportFromDefs (frm : SyntaxNode) (symbolTable : SymbolTable) : JSet Ref × SymbolTable :=
  let st1 := importModuleDefinitions symbolTable frm.base frm.imports
  (mkSet refKey
    (frm.imports.map (fun i =>
      { type := SymbolType.IMPORT
        level := ReferenceType.DEFINITION
        name := importNameOrPath i
        location := i.location
        statement := frm })), st1)

/-- A tree-walk analysis over the collaborator walker (`runAnalysis`,
part_000 lines 364-373): from the statement, the defs for method
resolution and the symbol table (read, never written) to the collected
defs.  `ApiCallAnalysis`, `DefAnnotationAnalysis` and `TargetsDefListener`
are such walkers. -/
abbrev WalkAnalysis := SyntaxNode → JSet Ref → SymbolTable → JSet Ref

/-- `getDefs(statement, symbolTable, defsForMethodResolution)` (part_000
lines 134-158): the union of the call analysis, the def-annotation
analysis, and the per-statement-shape defs; import statements additionally
update the symbol table. -/
def getDefs (apiCallAnalysis defAnnoAnalysis : WalkAnalysis)
    (targetsDefs : SyntaxNode → SymbolTable → JSet Ref)
    (statement : SyntaxNode) (symbolTable : SymbolTable)
    (defsForMethodResolution : JSet Ref) : JSet Ref × SymbolTable :=
  let base := setUnion refKey
    (apiCallAnalysis statement defsForMethodResolution symbolTable)
    (defAnnoAnalysis statement defsForMethodResolution symbolTable)
  if statement.ty = "import" then
    let r := getImportDefs statement symbolTable
    (setUnion refKey base r.1, r.2)
  else if statement.ty = "from" then
    let r := getImportFromDefs statement symbolTable
    (setUnion refKey base r.1, r.2)
  else if statement.ty = "def" then
    (setUnion refKey base (getFuncDefs statement), symbolTable)
  else if statement.ty = "class" then
    (setUnion refKey base (getClassDefs statement), symbolTable)
  else if statement.ty = "assign" then
    (setUnion refKey base (targetsDefs statement symbolTable), symbolTable)
  else
    (base, symbolTable)

/-! ### Per-statement uses (part_000, `getUses` and friends) -/

/-- The `NameSet` identifier (part_000 lines 332-335). -/
def nameSetKey (p : String × SyntaxNode) : String :=
  p.1 ++ "@" ++ locationString p.2.location

/-- `gatherNames(node)` (part_000 lines 343-354): every `name` node of the
subtree, paired with its id. -/
def gatherNames (node : SyntaxNode) : JSet (String × SyntaxNode) :=
  mkSet nameSetKey
    ((walkNode node).filter (fun e => e.ty = "name") |>.map (fun e => (e.name, e)))

/-- `gatherNames` over a node list (part_000 lines 344-345). -/
def gatherNamesList (nodes : List SyntaxNode) : JSet (String × SyntaxNode) :=
  mkSet nameSetKey
    ((walkNodes nodes).filter (fun e => e.ty = "name") |>.map (fun e => (e.name, e)))

/-- `getNameUses(statement)` (part_000 lines 227-238): a Variable/Use ref
per gathered name. -/
def getNameUses (statement : SyntaxNode) : JSet Ref :=
  mkSet refKey
    ((gatherNames statement).map (fun p =>
      { type := SymbolType.VARIABLE
        level := ReferenceType.USE
        name := p.1
        location := p.2.location
        statement := statement }))

/-- `getAssignUses(statement)` (part_000 lines 253-276): bare names of the
sources, plus bare names of the targets when the assignment is augmented. -/
def getAssignUses (statement : SyntaxNode) : JSet Ref :=
  let targets := mkSet refKey
    ((gatherNamesList statement.targets).map (fun p =>
      { type := SymbolType.VARIABLE
        level := ReferenceType.USE
        name := p.1
        location := p.2.location
        statement := statement }))
  let sources := mkSet refKey
    ((gatherNamesList statement.sources).map (fun p =>
      { type := SymbolType.VARIABLE
        level := ReferenceType.USE
        name := p.1
        location := p.2.location
        statement := statement }))
  setUnion refKey sources (if statement.op.isSome then targets else [])

/-- `getFuncDeclUses(statement)` (part_000 lines 246-251): build the
function's CFG (through the collaborator CFG builder), analyze it with the
parameter names passed as names already defined, and keep the undefined
refs of Use level. -/
def getFuncDeclUses (buildCfg : SyntaxNode → Cfg) (compute : ComputeDefUse) (fuel : Nat)
    (jsonSpecs : JsonSpecs) (cache : List (String × DefUse)) (statement : SyntaxNode) :
    Except String (JSet Ref) :=
  let defCfg := buildCfg statement
  let argNames : JSet String :=
    mkSet (fun s => s) (statement.params.filterMap (fun n => n))
  match analyze compute fuel defCfg jsonSpecs (some argNames) cache with
  | .error e => .error e
  | .ok (result, _) =>
    .ok (setFilter refKey (fun r => r.level = ReferenceType.USE) result.undefinedRefs)

/-! ## The directed graph (src/graph.ts)

`Graph<T>` is embedded at the instantiation the repository exercises,
`Graph<string>` with the identity identifier (graph.test.ts line 140);
`_nodes`, and each adjacency set, is a keyed set, and the two adjacency
maps are JS `Map`s from nodes to keyed sets. -/

/-- The identity identifier of the string instantiation. -/
def strKey : String → String := fun s => s

structure JGraph where
  nodes : JSet String := []
  outgoing : List (String × JSet String) := []
  incoming : List (String × JSet String) := []
deriving DecidableEq, Repr

/-- Update the entry under a present key of a JS `Map`. -/
def assocUpdate {K A : Type} [DecidableEq K] (l : List (K × A)) (key : K) (f : A → A) :
    List (K × A) :=
  l.map (fun p => if p.1 = key then (p.1, f p.2) else p)

/-- `addEdge(fromNode, toNode)` (graph.ts lines 42-53): record both nodes,
materialise their adjacency entries, and insert the edge in both maps. -/
def addEdge (g : JGraph) (fromNode toNode : String) : JGraph :=
  let nodes := setAdd strKey (setAdd strKey g.nodes [fromNode]) [toNode]
  let outgoing :=
    match assocLookup g.outgoing fromNode with
    | none => assocStore g.outgoing fromNode []
    | some _ => g.outgoing
  let incoming :=
    match assocLookup g.incoming toNode with
    | none => assocStore g.incoming toNode []
    | some _ => g.incoming
  let outgoing := assocUpdate outgoing fromNode (fun s => setAdd strKey s [toNode])
  let incoming := assocUpdate incoming toNode (fun s => setAdd strKey s [fromNode])
  { nodes := nodes, outgoing := outgoing, incoming := incoming }

/-- A graph built by a sequence of `addEdge` calls on a fresh graph. -/
def buildGraph (edges : List (String × String)) : JGraph :=
  edges.foldl (fun g e => addEdge g e.1 e.2) {}

/-- The in-loop state of `topoSort` (graph.ts lines 58-76): the emitted
prefix, the work set, and the two adjacency maps `topoSort` destructively
updates — note they are the graph's own `this.outgoing`/`this.incoming`,
not copies. -/
structure TopoState where
  sorted : List String
  work : JSet String
  out : List (String × JSet String)
  inc : List (String × JSet String)
deriving DecidableEq, Repr

/-- The body of the `forEach` over a popped node's outgoing snapshot
(graph.ts lines 66-72): delete the edge from both adjacency maps and
enqueue the target once its incoming set empties.  (For a graph built by
`addEdge` the target's incoming entry is always present; JS would throw
otherwise.) -/
def topoVisitEdge (n : String) (st : TopoState) (m : String) : TopoState :=
  let out := assocUpdate st.out n (fun s => setRemove strKey s m)
  let inc := assocUpdate st.inc m (fun s => setRemove strKey s n)
  let work :=
    match assocLookup inc m with
    | some s => if setEmpty s then setAdd strKey st.work [m] else st.work
    | none => st.work
  { sorted := st.sorted, work := work, out := out, inc := inc }

/-- The `while (!work.empty)` loop of `topoSort` (graph.ts lines 62-74):
pop a node, emit it, and process its outgoing snapshot.  Every iteration
emits one node and no node is emitted twice, so `|nodes| + 1` fuel reaches
the empty work set. -/
def topoLoop : Nat → TopoState → TopoState
  | 0, st => st
  | fuel + 1, st =>
    match st.work with
    | [] => st
    | n :: _ =>
      let st1 : TopoState :=
        { sorted := st.sorted ++ [n], work := setRemove strKey st.work n,
          out := st.out, inc := st.inc }
      match assocLookup st1.out n with
      | none => topoLoop fuel st1
      | some os => topoLoop fuel (os.foldl (topoVisitEdge n) st1)

/-- `topoSort()` (graph.ts lines 58-76): Kahn's algorithm.  The work set
starts from the nodes with no incoming entry; the loop consumes the
graph's own adjacency maps, so the second component returns the graph as
the call leaves it. -/
def topoSort (g : JGraph) : List String × JGraph :=
  let work0 := mkSet strKey (g.nodes.filter (fun n => (assocLookup g.incoming n).isNone))
  let st := topoLoop (g.nodes.length + 1)
    { sorted := [], work := work0, out := g.outgoing, inc := g.incoming }
  (st.sorted, { nodes := g.nodes, outgoing := st.out, incoming := st.inc })

/-- Targets of the edges leaving `n`. -/
def edgeTargets (g : JGraph) (n : String) : List String :=
  (assocLookup g.outgoing n).getD []

/-- Bounded reachability along edges: a path of between 1 and `k` edges. -/
def reachesB (g : JGraph) : Nat → String → String → Bool
  | 0, _, _ => false
  | k + 1, n, m => (edgeTargets g n).any (fun t => t = m || reachesB g k t m)

/-- Decidable acyclicity: no node reaches itself by a path of at most
`|nodes|` edges (cycles repeat a node within that bound). -/
def acyclicB (g : JGraph) : Bool :=
  g.nodes.all (fun n => ¬ reachesB g g.nodes.length n n)

/-! ## Cells and the program builder (src/cell.ts, src/program-builder.ts)

Statements parsed once and shared across program builds are mutable JS
objects; to make mutation observable the embedding stores them in an
explicit heap (a list of trees addressed by position) and lets cell
programs hold heap addresses.  A deep copy appends a fresh tree to the
heap; an in-place update would overwrite an existing address. -/

/-- The `Cell` contract (src/cell.ts). -/
structure Cell where
  text : String
  executionCount : Int
  executionEventId : String
  persistentId : String
  hasError : Bool
deriving DecidableEq, Repr

/-- A `CellProgram` (program-builder.ts lines 93-120).  `defs` and `uses`
are `Ref[]` variables initialised to `undefined` and only assigned inside
the `try` of `add`, hence optional. -/
structure CellProgramH where
  cell : Cell
  statements : List Nat
  defs : Option (List Ref) := none
  uses : Option (List Ref) := none
  hasError : Bool

/-- `shiftLines(loc, delta)` (program-builder.ts lines 79-86):
`Object.assign` copies the location, moving only the two line fields. -/
def shiftLines (loc : Location) (delta : Int) : Location :=
  { loc with first_line := loc.first_line + delta, last_line := loc.last_line + delta }

mutual

/-- The effect of the walk inside `shiftStatementLines` (program-builder.ts
lines 67-74) on the freshly copied tree: every node's location is shifted,
and a `for` node's `decl_location` too. -/
def shiftNodeLines (delta : Int) : SyntaxNode → SyntaxNode
  | .node t l d n p b ns im o tg src c =>
    SyntaxNode.node t (shiftLines l delta)
      (if t = "for" then d.map (fun dl => shiftLines dl delta) else d)
      n p b ns im o
      (shiftNodesLines delta tg) (shiftNodesLines delta src) (shiftNodesLines delta c)

def shiftNodesLines (delta : Int) : List SyntaxNode → List SyntaxNode
  | [] => []
  | x :: xs => shiftNodeLines delta x :: shiftNodesLines delta xs

end

/-- `shiftStatementLines(stmts, delta)` (program-builder.ts lines 64-77):
for each statement address, `JSON.parse(JSON.stringify(statement))` deep
copies the tree — here: a fresh heap cell is appended — and the copy's
locations are shifted; the returned addresses point at the copies. -/
def shiftStatementLines (heap : List SyntaxNode) (stmts : List Nat) (delta : Int) :
    List SyntaxNode × List Nat :=
  stmts.foldl
    (fun acc addr =>
      match acc.1.get? addr with
      | some stmtVal => (acc.1 ++ [shiftNodeLines delta stmtVal], acc.2 ++ [acc.1.length])
      | none => acc)
    (heap, [])

/-- A built `Program` (program-builder.ts lines 20-62): the assembled
module's statement addresses, the two line maps, and the concatenated
rewritten text. -/
structure ProgramH where
  treeCode : List Nat
  cellToLineMap : List (String × JSet Int)
  lineToCellMap : List (Int × Cell)
  text : String

/-- The `Program` constructor (program-builder.ts lines 24-56), with the
magics rewriter passed in as the collaborator it is: walk the cell
programs assigning consecutive line ranges, fill both line maps, and
append the shifted copies of each cell's statements. -/
def programConstruct (rewrite : String → String) (heap : List SyntaxNode)
    (cellPrograms : List CellProgramH) : List SyntaxNode × ProgramH :=
  let step := fun (acc : List SyntaxNode × Int × ProgramH) (cp : CellProgramH) =>
    let heap := acc.1
    let currentLine := acc.2.1
    let prog := acc.2.2
    let cell := cp.cell
    let cellLength := (cell.text.splitOn "\n").length
    let cellLines := (List.range cellLength).map (fun l => currentLine + (l : Int))
    let lineToCellMap := cellLines.foldl (fun m l => assocStore m l cell) prog.lineToCellMap
    let cellToLineMap := cellLines.foldl
      (fun m l =>
        match assocLookup m cell.executionEventId with
        | none => assocStore m cell.executionEventId (setAdd (fun i => toString i) [] [l])
        | some s => assocStore m cell.executionEventId (setAdd (fun i => toString i) s [l]))
      prog.cellToLineMap
    let shifted := shiftStatementLines heap cp.statements (currentLine - 1)
    (shifted.1, currentLine + (cellLength : Int),
      { treeCode := prog.treeCode ++ shifted.2
        cellToLineMap := cellToLineMap
        lineToCellMap := lineToCellMap
        text := prog.text ++ rewrite (cell.text ++ "\n") })
  let r := cellPrograms.foldl step
    (heap, (1 : Int),
      { treeCode := [], cellToLineMap := [], lineToCellMap := [], text := "" })
  (r.1, r.2.2)

mutual

/-- The annotation walk of `add` (program-builder.ts lines 150-155):
`node.location.path = cell.executionEventId` for every walked node. -/
def setPathNode (eventId : String) : SyntaxNode → SyntaxNode
  | .node t l d n p b ns im o tg src c =>
    SyntaxNode.node t { l with path := some eventId } d n p b ns im o
      (setPathNodes eventId tg) (setPathNodes eventId src) (setPathNodes eventId c)

def setPathNodes (eventId : String) : List SyntaxNode → List SyntaxNode
  | [] => []
  | x :: xs => setPathNode eventId x :: setPathNodes eventId xs

end

/-- The def/use accumulation loop of `add` (program-builder.ts lines
159-165): one `getDefUseForStatement` call per statement, pushing
`DEFINITION ∪ UPDATE` onto `defs` and `USE` onto `uses`.  A thrown
exception leaves the arrays holding what was pushed before it. -/
def pbCollectDefUse (compute : ComputeDefUse) :
    List SyntaxNode → AnalyzerState → List Ref → List Ref →
    List Ref × List Ref × AnalyzerState × Bool
  | [], st, defs, uses => (defs, uses, st, false)
  | stmt :: rest, st, defs, uses =>
    match getDefUseForStatement compute st stmt [] with
    | .error _ => (defs, uses, st, true)
    | .ok (defsUses, st1) =>
      pbCollectDefUse compute rest st1
        (defs ++ setUnion refKey defsUses.DEFINITION defsUses.UPDATE)
        (uses ++ defsUses.USE)

/-- `ProgramBuilder.add` for one cell (program-builder.ts lines 137-184),
with the parser and magics rewriter as collaborator parameters.  Parsed
statements are appended to the heap; on any failure the `catch` sets
`hasError` and the `CellProgram` keeps whatever the locals held at the
throw: empty statements and `undefined` defs/uses on a parse failure, the
full annotated statement list and the partially accumulated defs/uses on
an analysis failure. -/
def pbAddCell (parse : String → Except String (List SyntaxNode))
    (rewrite : String → String) (hasAnalyzer : Bool) (compute : ComputeDefUse)
    (heap : List SyntaxNode) (st : AnalyzerState) (cell : Cell) :
    CellProgramH × List SyntaxNode × AnalyzerState :=
  match parse (rewrite cell.text ++ "\n") with
  | .error _ =>
    ({ cell := cell, statements := [], defs := none, uses := none, hasError := true },
      heap, st)
  | .ok code =>
    let annotated := code.map (setPathNode cell.executionEventId)
    let addrs := (List.range annotated.length).map (fun i => heap.length + i)
    let heap1 := heap ++ annotated
    if hasAnalyzer then
      match pbCollectDefUse compute annotated st [] [] with
      | (defs, uses, st1, true) =>
        ({ cell := cell, statements := addrs, defs := some defs, uses := some uses,
           hasError := true }, heap1, st1)
      | (defs, uses, st1, false) =>
        ({ cell := cell, statements := addrs, defs := some defs, uses := some uses,
           hasError := cell.hasError }, heap1, st1)
    else
      ({ cell := cell, statements := addrs, defs := some [], uses := some [],
         hasError := cell.hasError }, heap1, st)

/-- The backward scan of `buildTo` (program-builder.ts line 201): the last
index whose cell has the requested execution event id. -/
def jsLastIndexOf (cps : List CellProgramH) (eventId : String) : Option Nat :=
  (List.range cps.length).reverse.find?
    (fun i =>
      match cps.get? i with
      | some cp => cp.cell.executionEventId = eventId
      | none => false)

/-- The collection loop of `buildTo` (program-builder.ts lines 204-214):
walk backward from below the target, stop at the first cell whose
execution count is not below the last count seen, prepend non-error cells,
and always update the last count seen. -/
def buildToCollect (cps : List CellProgramH) :
    Nat → Int → List CellProgramH → List CellProgramH
  | 0, _, acc => acc
  | j + 1, lastCount, acc =>
    match cps.get? j with
    | none => acc
    | some cellProgram =>
      if cellProgram.cell.executionCount ≥ lastCount then acc
      else
        buildToCollect cps j cellProgram.cell.executionCount
          (if ¬ cellProgram.hasError then cellProgram :: acc else acc)

/-- `buildTo(cellExecutionEventId)` (program-builder.ts lines 198-216).
When no logged cell has the requested id the backward scan leaves `i = -1`
and line 203 reads `.cell` of `this._cellPrograms[-1]`, which is
`undefined`: the call throws a `TypeError` instead of returning a value. -/
def buildTo (rewrite : String → String) (cps : List CellProgramH)
    (heap : List SyntaxNode) (eventId : String) :
    Except String (List SyntaxNode × ProgramH) :=
  match jsLastIndexOf cps eventId with
  | none => .error ("TypeError: cannot read property of undefined")
  | some i =>
    match cps.get? i with
    | none => .error ("TypeError: cannot read property of undefined")
    | some target =>
      let collected := buildToCollect cps i target.cell.executionCount [target]
      .ok (programConstruct rewrite heap collected)

/-! ## Graph well-formedness and the Kahn loop invariant -/

/-- The edge relation of a graph (read off `outgoing`). -/
def edgeE (g : JGraph) (n m : String) : Prop :=
  m ∈ edgeTargets g n

instance (g : JGraph) (n m : String) : Decidable (edgeE g n m) := by
  unfold edgeE; infer_instance

/-- In-neighbours read off `incoming`. -/
def inNbrs (g : JGraph) (m : String) : List String :=
  (assocLookup g.incoming m).getD []

/-- Structural invariants every graph built by `addEdge` satisfies: keyed
sets are duplicate-free, the two adjacency maps mirror each other, edge
endpoints are registered nodes, and an incoming entry is only ever created
non-empty.  All quantifiers range over the stored entries, so the
predicate is decidable and concrete graphs discharge it by computation. -/
def GraphWF (g : JGraph) : Prop :=
  SetWF strKey g.nodes
  ∧ (g.outgoing.map Prod.fst).Nodup
  ∧ (g.incoming.map Prod.fst).Nodup
  ∧ (∀ p ∈ g.outgoing, SetWF strKey p.2)
  ∧ (∀ p ∈ g.incoming, SetWF strKey p.2)
  ∧ (∀ p ∈ g.outgoing, ∀ m ∈ p.2, p.1 ∈ inNbrs g m)
  ∧ (∀ q ∈ g.incoming, ∀ n ∈ q.2, q.1 ∈ edgeTargets g n)
  ∧ (∀ p ∈ g.outgoing, p.1 ∈ g.nodes ∧ ∀ m ∈ p.2, m ∈ g.nodes)
  ∧ (∀ q ∈ g.incoming, q.2 ≠ [])

instance (g : JGraph) : Decidable (GraphWF g) := by
  unfold GraphWF; infer_instance

/-- The outgoing set `topoSort`'s loop state currently holds for `n`. -/
def curOut (st : TopoState) (n : String) : List String :=
  (assocLookup st.out n).getD []

/-- The incoming set `topoSort`'s loop state currently holds for `m`. -/
def curInc (st : TopoState) (m : String) : List String :=
  (assocLookup st.inc m).getD []

/-- The invariant of `topoLoop` relative to the original graph `g`:
the emitted prefix is a duplicate-free edge-consistent list of nodes
closed under predecessors; the work set holds exactly the unemitted nodes
with no unemitted predecessor; the live adjacency is the original
adjacency restricted to unemitted sources. -/
structure TopoInv (g : JGraph) (st : TopoState) : Prop where
  sortedNodup : st.sorted.Nodup
  sortedNodes : ∀ x ∈ st.sorted, x ∈ g.nodes
  workWF : SetWF strKey st.work
  workNodes : ∀ x ∈ st.work, x ∈ g.nodes
  workNotSorted : ∀ x ∈ st.work, x ∉ st.sorted
  outKeys : st.out.map Prod.fst = g.outgoing.map Prod.fst
  incKeys : st.inc.map Prod.fst = g.incoming.map Prod.fst
  incCur : ∀ m, curInc st m = (inNbrs g m).filter (fun y => decide (y ∉ st.sorted))
  outCur : ∀ n, curOut st n = if n ∈ st.sorted then [] else edgeTargets g n
  workIff : ∀ x ∈ g.nodes,
    (x ∈ st.work ↔ x ∉ st.sorted ∧
      (inNbrs g x).filter (fun y => decide (y ∉ st.sorted)) = [])
  predClosed : ∀ m ∈ st.sorted, ∀ n, edgeE g n m → n ∈ st.sorted
  consistent : List.Pairwise (fun a b => ¬ edgeE g b a) st.sorted

/-! ## Concrete fixtures for counterexamples and witnesses -/

/-- A trivial per-statement def/use computation: empty triple, no state
change. -/
def computeTriv : ComputeDefUse :=
  fun _ _ st => .ok ({}, st)

/-- An analyzer state over an empty spec bundle. -/
def st0 : AnalyzerState :=
  { cache := [], symtab := mkSymbolTable [] }

def locA : Location :=
  { first_line := 1, first_column := 0, last_line := 1, last_column := 5 }

def locB : Location :=
  { first_line := 2, first_column := 0, last_line := 2, last_column := 5 }

def locZ : Location :=
  { first_line := 1, first_column := 0, last_line := 2, last_column := 14 }

/-- A bare name node. -/
def nameNode (id : String) (loc : Location) : SyntaxNode :=
  SyntaxNode.node "name" loc none id [] "" [] [] none [] [] []

/-- A concrete assignment statement (`x = 1` at line 1). -/
def stmtA : SyntaxNode :=
  SyntaxNode.node "assign" locA none "" [] "" [] [] none [nameNode "x" locA] [] []

/-- A second concrete assignment statement (`y = x` at line 2). -/
def stmtB : SyntaxNode :=
  SyntaxNode.node "assign" locB none "" [] "" [] [] none
    [nameNode "y" locB] [nameNode "x" locB] []

/-- A concrete function definition statement with one parameter. -/
def defStmtZap : SyntaxNode :=
  SyntaxNode.node "def" locZ none "zap" [some "x"] "" [] [] none [] [] [stmtB]

/-- A cell whose text the failing parser rejects. -/
def cellBad : Cell :=
  { text := "%%bad", executionCount := 1, executionEventId := "e1",
    persistentId := "c1", hasError := false }

/-- A cell the parser accepts. -/
def cellOk : Cell :=
  { text := "x=1", executionCount := 2, executionEventId := "e2",
    persistentId := "c1", hasError := false }

/-- A parser collaborator that rejects everything. -/
def parseFail : String → Except String (List SyntaxNode) :=
  fun _ => .error ("SyntaxError")

/-- A parser collaborator that produces the one-statement module `x = 1`. -/
def parseOneStmt : String → Except String (List SyntaxNode) :=
  fun _ => .ok [stmtA]

/-- A per-statement computation that throws, as `getDefs`/`getUses` can. -/
def computeFail : ComputeDefUse :=
  fun _ _ _ => .error ("TypeError")

/-- The identity magics rewriter. -/
def rewriteId : String → String := fun s => s

/-- A cell program whose cell has event id `e1`. -/
def cpE1 : CellProgramH :=
  { cell := cellBad, statements := [], defs := some [], uses := some [], hasError := false }

/-- The two-node cycle `a ⇄ b`. -/
def gCyc : JGraph := buildGraph [("a", "b"), ("b", "a")]

/-- The single edge `a → b`. -/
def gAB : JGraph := buildGraph [("a", "b")]

/-- A reference used to exercise cache and set fixtures. -/
def refX : Ref :=
  { type := SymbolType.VARIABLE, level := ReferenceType.DEFINITION, name := "x",
    location := locA, statement := stmtA }

/-- A same-named use reference at another location. -/
def refXUse : Ref :=
  { type := SymbolType.VARIABLE, level := ReferenceType.USE, name := "x",
    location := locB, statement := stmtB }

/-- The analyzer state after the first cached computation of `stmtA`
under `computeTriv`. -/
def st1A : AnalyzerState :=
  { cache := [(locationString stmtA.location, {})], symtab := mkSymbolTable [] }

/-- A trivial CFG builder collaborator: no blocks. -/
def buildCfg0 : SyntaxNode → Cfg :=
  fun _ => { blocks := [], edges := [] }

/-- A walk analysis that collects nothing. -/
def walkNone : WalkAnalysis := fun _ _ _ => []

/-- A targets-def analysis that collects nothing. -/
def targetsNone : SyntaxNode → SymbolTable → JSet Ref := fun _ _ => []

/-- A use reference to a name that is no parameter of `defStmtZap`. -/
def refYUse : Ref :=
  { type := SymbolType.VARIABLE, level := ReferenceType.USE, name := "y",
    location := locA, statement := stmtA }

/-- A computation that reports a single use of `y` for every statement. -/
def computeUseY : ComputeDefUse :=
  fun _ _ st => .ok ({ USE := [refYUse] }, st)

/-- A CFG builder yielding one block that holds one statement. -/
def buildCfg1 : SyntaxNode → Cfg :=
  fun _ => { blocks := [{ id := 0, statements := [stmtA] }], edges := [] }

/-- A concrete block state holding one definition of `x`. -/
def duA : DefUse := { DEFINITION := [refX] }

/-- A concrete statement triple holding one update of `x`. -/
def duB : DefUse := { UPDATE := [refXUse] }

/-! # Theorems

First a lemma kit for the keyed-set model, then one theorem (with its
witness or counterexample) per specification claim. -/

theorem mem_setStore {T : Type} (k : T → String) (l : JSet T) (x y : T) :
    y ∈ setStore k l x ↔ y = x ∨ (y ∈ l ∧ k y ≠ k x) := by
  unfold setStore
  by_cases h : l.any (fun z => k z = k x)
  · rw [if_pos h]
    simp only [List.mem_map]
    constructor
    · rintro ⟨z, hz, hzy⟩
      by_cases hk : k z = k x
      · simp [hk] at hzy; exact Or.inl hzy.symm
      · simp [hk] at hzy; subst hzy; exact Or.inr ⟨hz, hk⟩
    · rintro (rfl | ⟨hy, hk⟩)
      · rcases List.any_eq_true.mp h with ⟨z, hz, hzk⟩
        simp only [decide_eq_true_eq] at hzk
        exact ⟨z, hz, by simp [hzk]⟩
      · exact ⟨y, hy, by simp [hk]⟩
  · rw [if_neg h]
    simp only [List.mem_append, List.mem_singleton]
    constructor
    · rintro (hy | rfl)
      · refine Or.inr ⟨hy, ?_⟩
        intro hk
        exact h (List.any_eq_true.mpr ⟨y, hy, by simp [hk]⟩)
      · exact Or.inl rfl
    · rintro (rfl | ⟨hy, _⟩)
      · exact Or.inr rfl
      · exact Or.inl hy

theorem setKeys_setStore_of_present {T : Type} (k : T → String) (l : JSet T) (x : T)
    (h : l.any (fun z => k z = k x)) : setKeys k (setStore k l x) = setKeys k l := by
  unfold setStore setKeys
  rw [if_pos h]
  rw [List.map_map]
  apply List.map_congr_left
  intro z _
  by_cases hk : k z = k x <;> simp [hk]

theorem setKeys_setStore_of_absent {T : Type} (k : T → String) (l : JSet T) (x : T)
    (h : ¬ l.any (fun z => k z = k x)) :
    setKeys k (setStore k l x) = setKeys k l ++ [k x] := by
  unfold setStore setKeys
  rw [if_neg h]
  simp

theorem SetWF_setStore {T : Type} (k : T → String) (l : JSet T) (x : T)
    (h : SetWF k l) : SetWF k (setStore k l x) := by
  by_cases hp : l.any (fun z => k z = k x)
  · unfold SetWF
    rw [setKeys_setStore_of_present k l x hp]
    exact h
  · unfold SetWF
    rw [setKeys_setStore_of_absent k l x hp]
    refine List.Nodup.append h (List.nodup_singleton _) ?_
    intro a ha hb
    simp only [List.mem_singleton] at hb
    subst hb
    rcases List.mem_map.mp ha with ⟨z, hz, hzk⟩
    exact hp (List.any_eq_true.mpr ⟨z, hz, by simp [hzk]⟩)

theorem SetWF_setAdd {T : Type} (k : T → String) (l : JSet T) (xs : List T)
    (h : SetWF k l) : SetWF k (setAdd k l xs) := by
  induction xs generalizing l with
  | nil => exact h
  | cons x xs ih => exact ih _ (SetWF_setStore k l x h)

theorem SetWF_nil {T : Type} (k : T → String) : SetWF k ([] : JSet T) := by
  simp [SetWF, setKeys]

theorem SetWF_mkSet {T : Type} (k : T → String) (xs : List T) : SetWF k (mkSet k xs) :=
  SetWF_setAdd k [] xs (SetWF_nil k)

theorem mem_of_mem_setAdd {T : Type} (k : T → String) (l : JSet T) (xs : List T) (y : T)
    (h : y ∈ setAdd k l xs) : y ∈ l ∨ y ∈ xs := by
  induction xs generalizing l with
  | nil => exact Or.inl h
  | cons x xs ih =>
    rcases ih _ h with hl | hxs
    · rcases (mem_setStore k l x y).mp hl with rfl | ⟨hy, _⟩
      · exact Or.inr (List.mem_cons_self _ _)
      · exact Or.inl hy
    · exact Or.inr (List.mem_cons_of_mem _ hxs)

theorem mem_of_mem_mkSet {T : Type} (k : T → String) (xs : List T) (y : T)
    (h : y ∈ mkSet k xs) : y ∈ xs := by
  rcases mem_of_mem_setAdd k [] xs y h with h0 | h1
  · cases h0
  · exact h1

theorem mem_setAdd_iff {T : Type} (k : T → String) (l : JSet T) (xs : List T) (y : T)
    (hxs : SetWF k xs) :
    y ∈ setAdd k l xs ↔ y ∈ xs ∨ (y ∈ l ∧ k y ∉ setKeys k xs) := by
  induction xs generalizing l with
  | nil => simp [setAdd, setKeys]
  | cons x xs ih =>
    have hxs' : SetWF k xs := by
      unfold SetWF setKeys at hxs ⊢
      exact (List.nodup_cons.mp hxs).2
    have hxnotin : k x ∉ setKeys k xs := by
      unfold SetWF setKeys at hxs
      exact (List.nodup_cons.mp hxs).1
    have hstep : setAdd k l (x :: xs) = setAdd k (setStore k l x) xs := rfl
    rw [hstep, ih _ hxs']
    constructor
    · rintro (hmem | ⟨hst, hnk⟩)
      · exact Or.inl (List.mem_cons_of_mem _ hmem)
      · rcases (mem_setStore k l x y).mp hst with rfl | ⟨hy, hk⟩
        · exact Or.inl (List.mem_cons_self _ _)
        · refine Or.inr ⟨hy, ?_⟩
          unfold setKeys
          simp only [List.map_cons, List.mem_cons]
          rintro (h1 | h2)
          · exact hk h1
          · exact hnk (by unfold setKeys; exact h2)
    · rintro (hmem | ⟨hy, hk⟩)
      · rcases List.mem_cons.mp hmem with rfl | hmem2
        · refine Or.inr ⟨(mem_setStore k l y y).mpr (Or.inl rfl), ?_⟩
          exact hxnotin
        · exact Or.inl hmem2
      · have hkx : k y ≠ k x := by
          intro hkk
          apply hk
          unfold setKeys
          simp [hkk]
        have hkxs : k y ∉ setKeys k xs := by
          intro hkk
          apply hk
          unfold setKeys at hkk ⊢
          simp only [List.map_cons, List.mem_cons]
          exact Or.inr hkk
        exact Or.inr ⟨(mem_setStore k l x y).mpr (Or.inr ⟨hy, hkx⟩), hkxs⟩

theorem mem_mkSet_iff {T : Type} (k : T → String) (xs : List T) (y : T)
    (hxs : SetWF k xs) : y ∈ mkSet k xs ↔ y ∈ xs := by
  rw [mkSet, mem_setAdd_iff k [] xs y hxs]
  simp

theorem setAdd_append {T : Type} (k : T → String) (l : JSet T) (xs ys : List T) :
    setAdd k l (xs ++ ys) = setAdd k (setAdd k l xs) ys := by
  unfold setAdd
  exact List.foldl_append _ _ _ _

theorem setAdd_eq_append {T : Type} (k : T → String) (l : JSet T) (xs : List T)
    (hxs : SetWF k xs) (hdisj : ∀ y ∈ xs, k y ∉ setKeys k l) :
    setAdd k l xs = l ++ xs := by
  induction xs generalizing l with
  | nil => simp [setAdd]
  | cons x xs ih =>
    have hxs' : SetWF k xs := by
      unfold SetWF setKeys at hxs ⊢
      exact (List.nodup_cons.mp hxs).2
    have hx : k x ∉ setKeys k l := hdisj x (List.mem_cons_self _ _)
    have habsent : ¬ l.any (fun z => k z = k x) := by
      intro hany
      rcases List.any_eq_true.mp hany with ⟨z, hz, hzk⟩
      simp only [decide_eq_true_eq] at hzk
      exact hx (by unfold setKeys; exact List.mem_map.mpr ⟨z, hz, hzk⟩)
    have hstep : setAdd k l (x :: xs) = setAdd k (setStore k l x) xs := rfl
    rw [hstep]
    rw [setStore, if_neg habsent]
    rw [ih (l ++ [x]) hxs' ?hd]
    · simp
    case hd =>
      intro y hy
      unfold setKeys
      simp only [List.map_append, List.mem_append, List.map_cons, List.mem_singleton,
        List.map_nil]
      rintro (hl | hx1)
      · exact hdisj y (List.mem_cons_of_mem _ hy) (by unfold setKeys; exact hl)
      · have hxk : k x ∉ setKeys k xs := by
          unfold SetWF setKeys at hxs
          exact (List.nodup_cons.mp hxs).1
        exact hxk (by unfold setKeys; rw [← hx1]; exact List.mem_map.mpr ⟨y, hy, rfl⟩)

theorem mkSet_eq_self {T : Type} (k : T → String) (xs : List T) (hxs : SetWF k xs) :
    mkSet k xs = xs := by
  unfold mkSet
  rw [setAdd_eq_append k [] xs hxs ?hd]
  · simp
  case hd => intro y _; simp [setKeys]

theorem setUnion_eq_setAdd {T : Type} (k : T → String) (a b : JSet T) (ha : SetWF k a) :
    setUnion k a b = setAdd k a b := by
  unfold setUnion mkSet
  rw [setAdd_append, setAdd_eq_append k [] a ha (by intro y _; simp [setKeys])]
  simp

theorem mem_setUnion_iff {T : Type} (k : T → String) (a b : JSet T) (y : T)
    (ha : SetWF k a) (hb : SetWF k b) :
    y ∈ setUnion k a b ↔ y ∈ b ∨ (y ∈ a ∧ k y ∉ setKeys k b) := by
  rw [setUnion_eq_setAdd k a b ha]
  exact mem_setAdd_iff k a b y hb

theorem SetWF_setUnion {T : Type} (k : T → String) (a b : JSet T) :
    SetWF k (setUnion k a b) :=
  SetWF_mkSet k _

theorem SetWF_filter {T : Type} (k : T → String) (l : JSet T) (p : T → Bool)
    (h : SetWF k l) : SetWF k (l.filter p) := by
  unfold SetWF setKeys at h ⊢
  exact List.Nodup.sublist (List.Sublist.map k (List.filter_sublist l)) h

theorem mem_setFilter_iff {T : Type} (k : T → String) (p : T → Bool) (l : JSet T) (y : T)
    (h : SetWF k l) : y ∈ setFilter k p l ↔ y ∈ l ∧ p y := by
  unfold setFilter
  rw [mem_mkSet_iff k _ y (SetWF_filter k l p h)]
  exact List.mem_filter

theorem mem_setMinus_iff {T : Type} (k : T → String) (a b : JSet T) (y : T)
    (ha : SetWF k a) : y ∈ setMinus k a b ↔ y ∈ a ∧ ¬ setHas k b y := by
  unfold setMinus
  rw [mem_mkSet_iff k _ y (SetWF_filter k a _ ha), List.mem_filter]
  simp

theorem SetWF_setMinus {T : Type} (k : T → String) (a b : JSet T) :
    SetWF k (setMinus k a b) :=
  SetWF_mkSet k _

theorem mem_setRemove_iff {T : Type} (k : T → String) (l : JSet T) (x y : T) :
    y ∈ setRemove k l x ↔ y ∈ l ∧ k y ≠ k x := by
  unfold setRemove
  by_cases h : setHas k l x
  · rw [if_pos h, List.mem_filter]
    simp
  · rw [if_neg h]
    constructor
    · intro hy
      refine ⟨hy, ?_⟩
      intro hk
      exact h (List.any_eq_true.mpr ⟨y, hy, by simp [hk]⟩)
    · exact fun hy => hy.1

theorem setHas_iff {T : Type} (k : T → String) (l : JSet T) (x : T) :
    setHas k l x ↔ ∃ y ∈ l, k y = k x := by
  unfold setHas
  rw [List.any_eq_true]
  simp

theorem mem_setStore_of_mem_inj {T : Type} (k : T → String)
    (hk : ∀ a b, k a = k b → a = b) (l : JSet T) (x y : T) (hy : y ∈ l) :
    y ∈ setStore k l x := by
  by_cases hkk : k y = k x
  · have : y = x := hk _ _ hkk
    subst this
    exact (mem_setStore k l y y).mpr (Or.inl rfl)
  · exact (mem_setStore k l x y).mpr (Or.inr ⟨hy, hkk⟩)

theorem mem_setAdd_of_mem_left_inj {T : Type} (k : T → String)
    (hk : ∀ a b, k a = k b → a = b) (l : JSet T) (xs : List T) (y : T) (hy : y ∈ l) :
    y ∈ setAdd k l xs := by
  induction xs generalizing l with
  | nil => exact hy
  | cons x xs ih => exact ih _ (mem_setStore_of_mem_inj k hk l x y hy)

theorem mem_setAdd_of_mem_right_inj {T : Type} (k : T → String)
    (hk : ∀ a b, k a = k b → a = b) (l : JSet T) (xs : List T) (y : T) (hy : y ∈ xs) :
    y ∈ setAdd k l xs := by
  induction xs generalizing l with
  | nil => cases hy
  | cons x xs ih =>
    rcases List.mem_cons.mp hy with rfl | hy2
    · exact mem_setAdd_of_mem_left_inj k hk _ xs y
        ((mem_setStore k l y y).mpr (Or.inl rfl))
    · exact ih _ hy2

theorem mem_mkSet_inj {T : Type} (k : T → String) (hk : ∀ a b, k a = k b → a = b)
    (xs : List T) (y : T) : y ∈ mkSet k xs ↔ y ∈ xs := by
  constructor
  · exact mem_of_mem_mkSet k xs y
  · exact mem_setAdd_of_mem_right_inj k hk [] xs y

theorem assocLookup_assocStore_self {K A : Type} [DecidableEq K]
    (l : List (K × A)) (key : K) (v : A) :
    assocLookup (assocStore l key v) key = some v := by
  unfold assocStore assocLookup
  by_cases h : l.any (fun p => p.1 = key)
  · rw [if_pos h]
    induction l with
    | nil => simp at h
    | cons p l ih =>
      by_cases hp : p.1 = key
      · simp [hp]
      · simp only [List.any_cons, Bool.or_eq_true, decide_eq_true_eq] at h
        rcases h with h1 | h2
        · exact absurd h1 hp
        · simp only [List.map_cons, if_neg hp, List.find?]
          rw [show (decide (p.1 = key)) = false from decide_eq_false hp]
          simpa using ih h2
  · rw [if_neg h]
    induction l with
    | nil => simp
    | cons p l ih =>
      simp only [List.any_cons, Bool.or_eq_true, decide_eq_true_eq, not_or] at h
      simp only [List.cons_append, List.find?]
      rw [show (decide (p.1 = key)) = false from decide_eq_false h.1]
      simpa using ih h.2

/-- C8 counterexample: `pop` on an empty set surfaces `'empty'`, not
`"cannot take from an empty set"`; on the non-empty string set `{"a"}`,
`take` returns `undefined` and removes nothing; on `{"a", "undefined"}`
it returns `undefined` yet deletes the `"undefined"` entry it did not
return; and on the non-empty location-keyed set `{locA}` it throws a
`TypeError` — in none of these cases does `take` remove and return an
element of the set. -/
theorem c8_claim_counterexample :
    setPop strKey ([] : JSet String) = .error ("empty")
    ∧ ("empty" : String) ≠ "cannot take from an empty set"
    ∧ setTake strKey (some "undefined") (["a"] : JSet String) = .ok (none, ["a"])
    ∧ (∀ x ∈ (["a"] : JSet String),
        setTake strKey (some "undefined") ["a"] ≠ .ok (some x, setRemove strKey ["a"] x))
    ∧ setTake strKey (some "undefined") (["a", "undefined"] : JSet String) = .ok (none, ["a"])
    ∧ ("undefined" : String) ∈ (["a", "undefined"] : JSet String)
    ∧ setTake locationString none [locA] = .error ("TypeError") := by
  have heq : setTake strKey (some "undefined") (["a"] : JSet String) = .ok (none, ["a"]) := rfl
  refine ⟨rfl, by decide, heq, ?_, rfl, by decide, rfl⟩
  intro x hx h
  rw [heq] at h
  simp at h

/-- C8 (amended): on an empty set `pop` fails with `'empty'` and `take`
with `'cannot take from an empty set'`; on a non-empty set `pop` removes
and returns the first entry, and `take` does the same when the first key
is `String` of its own `parseInt` (as with canonical numerals in
number-keyed sets).  When the parsed key matches no entry, `take` returns
`undefined` and `remove(undefined)` either throws a `TypeError` (an
identifier that dereferences its argument) or deletes exactly the entries
stored under `String(getIdentifier(undefined))` — the key `"undefined"`
for `StringSet` — while returning none of them. -/
theorem c8_pop_take_amended {T : Type} (k : T → String) (uk : Option String) (l : JSet T) :
    (l = [] → setPop k l = .error ("empty") ∧
      setTake k uk l = .error ("cannot take from an empty set")) ∧
    (∀ x rest, l = x :: rest →
      (x ∈ l ∧ setPop k l = .ok (x, setRemove k l x) ∧ x ∉ setRemove k l x) ∧
      (jsNumKey (jsParseInt (k x)) = k x →
        setTake k uk l = .ok (some x, setRemove k l x) ∧ x ∈ l ∧ x ∉ setRemove k l x) ∧
      ((∀ y ∈ l, k y ≠ jsNumKey (jsParseInt (k x))) →
        setTake k none l = .error ("TypeError") ∧
        ∀ u, setTake k (some u) l = .ok (none, l.filter (fun y => k y ≠ u)) ∧
          ∀ y ∈ l, k y = u → y ∉ l.filter (fun y => k y ≠ u))) := by
  constructor
  · rintro rfl
    exact ⟨rfl, rfl⟩
  · rintro x rest rfl
    have hnotrem : x ∉ setRemove k (x :: rest) x := by
      intro hmem
      exact ((mem_setRemove_iff k (x :: rest) x x).mp hmem).2 rfl
    have hred : ∀ uk2, setTake k uk2 (x :: rest) =
        (match (x :: rest).find? (fun y => k y = jsNumKey (jsParseInt (k x))) with
          | some r => .ok (some r, setRemove k (x :: rest) r)
          | none =>
            match uk2 with
            | none => .error ("TypeError")
            | some u => .ok (none, (x :: rest).filter (fun y => k y ≠ u))) :=
      fun _ => rfl
    refine ⟨⟨List.mem_cons_self _ _, rfl, hnotrem⟩, ?_, ?_⟩
    · intro hkey
      have hfind : (x :: rest).find? (fun y => k y = jsNumKey (jsParseInt (k x))) = some x := by
        simp only [List.find?]
        rw [show (decide (k x = jsNumKey (jsParseInt (k x)))) = true from
          decide_eq_true hkey.symm]
      refine ⟨?_, List.mem_cons_self _ _, hnotrem⟩
      rw [hred uk, hfind]
    · intro hnone
      have hfind : (x :: rest).find? (fun y => k y = jsNumKey (jsParseInt (k x))) = none := by
        apply List.find?_eq_none.mpr
        intro y hy
        simp only [decide_eq_true_eq]
        exact hnone y hy
      refine ⟨by rw [hred none, hfind], ?_⟩
      intro u
      refine ⟨by rw [hred (some u), hfind], ?_⟩
      intro y _ hyu hymem
      rw [List.mem_filter] at hymem
      simp only [decide_eq_true_eq] at hymem
      exact hymem.2 hyu

/-- C1 counterexample: for the single backward dataflow edge
`(line 1) → (line 2)` with the seed statement at line 2, the code's
closure accepts both lines, while the claim's reading of start and end
(`start = t.location, end = f.location` in backward mode) accepts only
the seed line — the claim describes the opposite orientation. -/
theorem c1_claim_counterexample :
    sliceClosureClaim (some [locB]) [{ fromLoc := locA, toLoc := locB }]
        SliceDirection.Backward
      = [locB]
    ∧ sliceClosure (some [locB]) [{ fromLoc := locA, toLoc := locB }]
        SliceDirection.Backward
      = [locB, locA]
    ∧ sliceClosureClaim (some [locB]) [{ fromLoc := locA, toLoc := locB }]
        SliceDirection.Backward
      ≠ sliceClosure (some [locB]) [{ fromLoc := locA, toLoc := locB }]
        SliceDirection.Backward := by
  refine ⟨by decide, by decide, by decide⟩

theorem sliceFlowStep_eq_amended (seeds : Option (JSet Location)) (dir : SliceDirection)
    (s : JSet Location) (flow : FlowLoc) :
    sliceFlowStep seeds dir s flow = sliceFlowStepAmended seeds dir s flow := by
  cases dir <;> cases seeds <;> rfl

theorem sliceLoop_eq_amended (seeds : Option (JSet Location)) (dir : SliceDirection)
    (dfa : List FlowLoc) (fuel : Nat) (s : JSet Location) :
    sliceLoop seeds dir dfa fuel s = sliceLoopAmended seeds dir dfa fuel s := by
  induction fuel generalizing s with
  | zero => rfl
  | succ fuel ih =>
    unfold sliceLoop sliceLoopAmended slicePass
    have hstep : sliceFlowStep seeds dir = sliceFlowStepAmended seeds dir := by
      funext s flow
      exact sliceFlowStep_eq_amended seeds dir s flow
    rw [hstep]
    by_cases h : setSize (dfa.foldl (sliceFlowStepAmended seeds dir) s) > setSize s
    · rw [if_pos h, if_pos h, ih]
    · rw [if_neg h, if_neg h]

/-- C1 (amended): the closure loop of `slice` behaves exactly as the
amended description says — for an edge `f → t`, backward mode reads
`start = f.location, end = t.location` (swapped in forward mode), adds
`end` whenever it intersects a seed-statement location (or always, with
no seeds), and adds `start` whenever an accepted location encloses
`end`. -/
theorem c1_slice_closure_amended (seeds : Option (JSet Location)) (dfa : List FlowLoc)
    (dir : SliceDirection) :
    sliceClosure seeds dfa dir = sliceClosureAmended seeds dfa dir := by
  unfold sliceClosure sliceClosureAmended
  cases seeds <;> exact sliceLoop_eq_amended _ dir dfa _ _

/-- C9: cache safety of `getDefUseForStatement` — once a call for a
statement has returned a triple, any immediately following call for the
same statement returns the identical triple, whatever incoming defs the
second call passes: the result was stored under the statement's canonical
location string and the second call hits that entry. -/
theorem c9_cache_safety (compute : ComputeDefUse) (st : AnalyzerState) (stmt : SyntaxNode)
    (d1 d2 : JSet Ref) (r1 : DefUse) (s1 : AnalyzerState)
    (h : getDefUseForStatement compute st stmt d1 = .ok (r1, s1)) :
    ∃ s2, getDefUseForStatement compute s1 stmt d2 = .ok (r1, s2) := by
  simp only [getDefUseForStatement] at h ⊢
  rcases hc : assocLookup st.cache (locationString stmt.location) with _ | cached
  · rw [hc] at h
    rcases hcomp : compute stmt d1 st with e | ⟨res, st1⟩
    · rw [hcomp] at h
      cases h
    · rw [hcomp] at h
      simp only [Except.ok.injEq, Prod.mk.injEq] at h
      rcases h with ⟨hr, hs⟩
      subst hs
      dsimp only
      rw [assocLookup_assocStore_self]
      exact ⟨_, by rw [hr]⟩
  · rw [hc] at h
    simp only [Except.ok.injEq, Prod.mk.injEq] at h
    rcases h with ⟨hr, hs⟩
    subst hr
    subst hs
    rw [hc]
    exact ⟨st, rfl⟩

/-- C9 witness: the cached triple of `stmtA` is returned unchanged by a
second call that passes different incoming defs. -/
theorem c9_cache_safety_witness :
    ∃ s2, getDefUseForStatement computeTriv st1A stmtA [refXUse] = .ok ({}, s2) :=
  c9_cache_safety computeTriv st0 stmtA [] [refXUse] {} st1A rfl

/-- C4: `buildTo` with an event id matching no logged cell does not return
a null result for callers to check — the backward scan runs past the start
of the log and line 203 dereferences `undefined`, so the call throws a
`TypeError`. -/
theorem c4_buildTo_unknown_id_throws (rewrite : String → String)
    (cps : List CellProgramH) (heap : List SyntaxNode) (eventId : String)
    (h : ∀ cp ∈ cps, cp.cell.executionEventId ≠ eventId) :
    buildTo rewrite cps heap eventId
      = .error ("TypeError: cannot read property of undefined") := by
  have hfind : jsLastIndexOf cps eventId = none := by
    apply List.find?_eq_none.mpr
    intro i _
    rcases hg : cps.get? i with _ | cp
    · simp [hg]
    · simp only [hg, decide_eq_true_eq]
      exact h cp (List.get?_mem hg)
  unfold buildTo
  rw [hfind]

/-- C4 witness: a log holding only the cell with event id `e1`, queried
for the unknown id `nope`. -/
theorem c4_buildTo_unknown_id_throws_witness :
    buildTo rewriteId [cpE1] [] "nope"
      = .error ("TypeError: cannot read property of undefined") :=
  c4_buildTo_unknown_id_throws rewriteId [cpE1] [] "nope" (by decide)

/-- C2: analysing a function definition registers nothing — for any
statement of type `def`, `getDefs` returns exactly the call-analysis and
def-annotation refs together with the single Function/Definition ref of
`getFuncDefs`, and returns the symbol table unchanged.  No dataflow
analysis of the body runs here and no function spec is stored under the
function's name, although the repository's own slice tests
(`eliminates functions without side-effects`, `keeps functions with item
updates`) require stored specs to resolve later calls. -/
theorem c2_def_statement_registers_nothing (api anno : WalkAnalysis)
    (targets : SyntaxNode → SymbolTable → JSet Ref)
    (stmt : SyntaxNode) (symtab : SymbolTable) (d : JSet Ref)
    (h : stmt.ty = "def") :
    getDefs api anno targets stmt symtab d
      = (setUnion refKey
          (setUnion refKey (api stmt d symtab) (anno stmt d symtab))
          (getFuncDefs stmt), symtab) := by
  unfold getDefs
  rw [h]
  rw [if_neg (by decide), if_neg (by decide), if_pos rfl]

/-- C2 witness: the concrete definition statement `def zap(x): ...` under
empty walk analyses and a fresh symbol table. -/
theorem c2_def_statement_registers_nothing_witness :
    getDefs walkNone walkNone targetsNone defStmtZap (mkSymbolTable []) []
      = (setUnion refKey
          (setUnion refKey (walkNone defStmtZap [] (mkSymbolTable []))
            (walkNone defStmtZap [] (mkSymbolTable [])))
          (getFuncDefs defStmtZap), mkSymbolTable []) :=
  c2_def_statement_registers_nothing walkNone walkNone targetsNone defStmtZap
    (mkSymbolTable []) [] rfl

/-- C5: whenever `getFuncDeclUses` returns a use set for a function
definition, every returned ref is an undefined-use reference of the body:
it has Use level, and its name is never one of the function's parameter
names (those are passed to `analyze` as names defined on entry and
filtered out of the undefined refs). -/
theorem c5_func_decl_uses_exclude_params (buildCfg : SyntaxNode → Cfg)
    (compute : ComputeDefUse) (fuel : Nat) (jsonSpecs : JsonSpecs)
    (cache : List (String × DefUse)) (stmt : SyntaxNode) (us : JSet Ref)
    (h : getFuncDeclUses buildCfg compute fuel jsonSpecs cache stmt = .ok us) :
    ∀ r ∈ us, r.level = ReferenceType.USE ∧
      r.name ∉ stmt.params.filterMap (fun n => n) := by
  intro r hr
  simp only [getFuncDeclUses] at h
  rcases ha : analyze compute fuel (buildCfg stmt) jsonSpecs
      (some (mkSet (fun s => s) (stmt.params.filterMap (fun n => n)))) cache with e | ⟨result, st1⟩
  · rw [ha] at h
    cases h
  · rw [ha] at h
    simp only [Except.ok.injEq] at h
    subst h
    have hr1 := mem_of_mem_mkSet refKey _ r hr
    rw [List.mem_filter] at hr1
    rcases hr1 with ⟨hmem, hlev⟩
    simp only [decide_eq_true_eq] at hlev
    refine ⟨hlev, ?_⟩
    simp only [analyze] at ha
    rcases hl : analyzeLoop compute (buildCfg stmt) fuel
        { cache := cache, symtab := mkSymbolTable jsonSpecs }
        { workQueue := (buildCfg stmt).blocks.reverse
          defUsePerBlock := (buildCfg stmt).blocks.reverse.map (fun b => (b.id, ({} : DefUse)))
          undefinedRefs := []
          dataflows := [] } with e | ⟨s, stx⟩
    · rw [hl] at ha
      cases ha
    · rw [hl] at ha
      simp only [Except.ok.injEq, Prod.mk.injEq] at ha
      rcases ha with ⟨hres, _⟩
      intro hname
      rw [← hres] at hmem
      dsimp only at hmem
      have hmem3 := mem_of_mem_mkSet refKey _ r hmem
      rw [List.mem_filter] at hmem3
      rcases hmem3 with ⟨_, hpred⟩
      simp only [decide_eq_true_eq] at hpred
      apply hpred
      unfold stringSetContains
      apply List.any_eq_true.mpr
      refine ⟨r.name, ?_, by simp⟩
      exact (mem_mkSet_inj (fun s => s) (fun a b hab => hab) _ r.name).mpr hname

/-- C5 witness: on `defStmtZap` with a one-block CFG and a computation
reporting one use of `y`, the declaration's use set is `[refYUse]`, and
that ref is a Use-level ref whose name is no parameter. -/
theorem c5_func_decl_uses_exclude_params_witness :
    refYUse.level = ReferenceType.USE
    ∧ refYUse.name ∉ defStmtZap.params.filterMap (fun n => n) :=
  c5_func_decl_uses_exclude_params buildCfg1 computeUseY 2 [] [] defStmtZap [refYUse]
    rfl refYUse (List.mem_singleton_self refYUse)

/-- C6 counterexample: a cell whose parse fails is stored with
`hasError = true` and empty statements but with `undefined` defs and uses
(`none`), not empty lists; and a cell whose parse succeeds but whose
analysis throws keeps its full parsed statement list, which is not
empty. -/
theorem c6_claim_counterexample :
    (pbAddCell parseFail rewriteId true computeTriv [] st0 cellBad).1.hasError = true
    ∧ (pbAddCell parseFail rewriteId true computeTriv [] st0 cellBad).1.statements = []
    ∧ (pbAddCell parseFail rewriteId true computeTriv [] st0 cellBad).1.defs = none
    ∧ (pbAddCell parseFail rewriteId true computeTriv [] st0 cellBad).1.defs ≠ some []
    ∧ (pbAddCell parseFail rewriteId true computeTriv [] st0 cellBad).1.uses ≠ some []
    ∧ (pbAddCell parseOneStmt rewriteId true computeFail [] st0 cellOk).1.hasError = true
    ∧ (pbAddCell parseOneStmt rewriteId true computeFail [] st0 cellOk).1.statements = [0]
    ∧ (pbAddCell parseOneStmt rewriteId true computeFail [] st0 cellOk).1.statements ≠ [] := by
  refine ⟨rfl, rfl, rfl, ?_, ?_, rfl, rfl, by decide⟩
  · intro h
    rw [show (pbAddCell parseFail rewriteId true computeTriv [] st0 cellBad).1.defs
        = none from rfl] at h
    exact Option.noConfusion h
  · intro h
    rw [show (pbAddCell parseFail rewriteId true computeTriv [] st0 cellBad).1.uses
        = none from rfl] at h
    exact Option.noConfusion h

/-- C6 (amended): on a parse failure `add` stores the cell with
`hasError = true`, no statements, and `undefined` (absent) defs and uses;
on a successful parse with a failing analysis it stores the annotated
statements it parsed and the defs and uses accumulated before the throw,
with `hasError = true`. -/
theorem c6_add_failure_amended (parse : String → Except String (List SyntaxNode))
    (rewrite : String → String) (hasAnalyzer : Bool) (compute : ComputeDefUse)
    (heap : List SyntaxNode) (st : AnalyzerState) (cell : Cell) :
    (∀ e, parse (rewrite cell.text ++ "\n") = .error e →
      pbAddCell parse rewrite hasAnalyzer compute heap st cell
        = ({ cell := cell, statements := [], defs := none, uses := none,
             hasError := true }, heap, st)) ∧
    (∀ code defs uses st1 failed, parse (rewrite cell.text ++ "\n") = .ok code →
      pbCollectDefUse compute (code.map (setPathNode cell.executionEventId)) st [] []
        = (defs, uses, st1, failed) →
      hasAnalyzer = true →
      pbAddCell parse rewrite hasAnalyzer compute heap st cell
        = ({ cell := cell,
             statements := (List.range code.length).map (fun i => heap.length + i),
             defs := some defs, uses := some uses,
             hasError := (cell.hasError || failed) },
           heap ++ code.map (setPathNode cell.executionEventId), st1)) := by
  constructor
  · intro e he
    unfold pbAddCell
    rw [he]
  · intro code defs uses st1 failed hok hcoll htrue
    subst htrue
    unfold pbAddCell
    rw [hok]
    simp only [List.length_map]
    rw [hcoll]
    cases failed
    · simp
    · simp

/-- C6 witness: the amended theorem's parse-failure case at the concrete
rejected cell. -/
theorem c6_add_failure_amended_witness :
    pbAddCell parseFail rewriteId true computeTriv [] st0 cellBad
      = ({ cell := cellBad, statements := [], defs := none, uses := none,
           hasError := true }, [], st0) :=
  (c6_add_failure_amended parseFail rewriteId true computeTriv [] st0 cellBad).1
    "SyntaxError" rfl

theorem shiftStatementLines_foldl_append (delta : Int) (stmts : List Nat)
    (acc : List SyntaxNode × List Nat) :
    ∃ extra, (stmts.foldl
      (fun acc addr =>
        match acc.1.get? addr with
        | some stmtVal => (acc.1 ++ [shiftNodeLines delta stmtVal], acc.2 ++ [acc.1.length])
        | none => acc)
      acc).1 = acc.1 ++ extra := by
  induction stmts generalizing acc with
  | nil => exact ⟨[], by simp⟩
  | cons a rest ih =>
    rcases hg : acc.1.get? a with _ | v
    · rcases ih acc with ⟨e2, he2⟩
      refine ⟨e2, ?_⟩
      simp only [List.foldl_cons, hg]
      exact he2
    · rcases ih (acc.1 ++ [shiftNodeLines delta v], acc.2 ++ [acc.1.length]) with ⟨e2, he2⟩
      refine ⟨[shiftNodeLines delta v] ++ e2, ?_⟩
      simp only [List.foldl_cons, hg]
      rw [he2, List.append_assoc]

theorem shiftStatementLines_append (heap : List SyntaxNode) (stmts : List Nat) (delta : Int) :
    ∃ extra, (shiftStatementLines heap stmts delta).1 = heap ++ extra := by
  unfold shiftStatementLines
  exact shiftStatementLines_foldl_append delta stmts (heap, [])

/-- C10: building a `Program` never modifies the statements already held
by the builder's cell programs — every statement is deep-copied (appended
as a fresh tree) before its line numbers are shifted, so the heap built so
far, including every AST node location that keys the def/use cache, is an
unchanged prefix of the heap after any build. -/
theorem c10_program_build_preserves_statements (rewrite : String → String)
    (heap : List SyntaxNode) (cellPrograms : List CellProgramH) :
    (∃ extra, (programConstruct rewrite heap cellPrograms).1 = heap ++ extra) ∧
    (programConstruct rewrite heap cellPrograms).1.take heap.length = heap := by
  have main : ∀ (cps : List CellProgramH) (acc : List SyntaxNode × Int × ProgramH),
      ∃ extra, (cps.foldl
        (fun (acc : List SyntaxNode × Int × ProgramH) (cp : CellProgramH) =>
          let heap := acc.1
          let currentLine := acc.2.1
          let prog := acc.2.2
          let cell := cp.cell
          let cellLength := (cell.text.splitOn "\n").length
          let cellLines := (List.range cellLength).map (fun l => currentLine + (l : Int))
          let lineToCellMap := cellLines.foldl (fun m l => assocStore m l cell) prog.lineToCellMap
          let cellToLineMap := cellLines.foldl
            (fun m l =>
              match assocLookup m cell.executionEventId with
              | none => assocStore m cell.executionEventId (setAdd (fun i => toString i) [] [l])
              | some s => assocStore m cell.executionEventId (setAdd (fun i => toString i) s [l]))
            prog.cellToLineMap
          let shifted := shiftStatementLines heap cp.statements (currentLine - 1)
          (shifted.1, currentLine + (cellLength : Int),
            { treeCode := prog.treeCode ++ shifted.2
              cellToLineMap := cellToLineMap
              lineToCellMap := lineToCellMap
              text := prog.text ++ rewrite (cell.text ++ "\n") })) acc).1 = acc.1 ++ extra := by
    intro cps
    induction cps with
    | nil => exact fun acc => ⟨[], by simp⟩
    | cons cp rest ih =>
      intro acc
      rcases shiftStatementLines_append acc.1 cp.statements (acc.2.1 - 1) with ⟨e1, he1⟩
      rcases ih ((shiftStatementLines acc.1 cp.statements (acc.2.1 - 1)).1,
        acc.2.1 + ((cp.cell.text.splitOn "\n").length : Int), _) with ⟨e2, he2⟩
      refine ⟨e1 ++ e2, ?_⟩
      simp only [List.foldl_cons]
      rw [he2, he1, List.append_assoc]
  rcases main cellPrograms (heap, 1,
      { treeCode := [], cellToLineMap := [], lineToCellMap := [], text := "" }) with ⟨extra, hex⟩
  constructor
  · exact ⟨extra, hex⟩
  · rw [show (programConstruct rewrite heap cellPrograms).1 = heap ++ extra from hex]
    exact List.take_left heap extra

theorem mem_key_inj {T : Type} (k : T → String) (l : JSet T) (h : SetWF k l)
    (y r : T) (hy : y ∈ l) (hr : r ∈ l) (hk : k y = k r) : y = r := by
  induction l with
  | nil => cases hy
  | cons a rest ih =>
    have hwf : SetWF k rest := by
      unfold SetWF setKeys at h ⊢
      exact (List.nodup_cons.mp h).2
    have hnotin : k a ∉ setKeys k rest := by
      unfold SetWF setKeys at h
      exact (List.nodup_cons.mp h).1
    rcases List.mem_cons.mp hy with rfl | hy2
    · rcases List.mem_cons.mp hr with rfl | hr2
      · rfl
      · exact absurd (by unfold setKeys; rw [hk]; exact List.mem_map.mpr ⟨r, hr2, rfl⟩) hnotin
    · rcases List.mem_cons.mp hr with rfl | hr2
      · exact absurd (by unfold setKeys; rw [← hk]; exact List.mem_map.mpr ⟨y, hy2, rfl⟩) hnotin
      · exact ih hwf hy2 hr2

theorem duGet_duUpdate (d n : DefUse) (K : ReferenceType) :
    duGet (duUpdate d n) K =
      setUnion refKey
        (setMinus refKey (duGet d K)
          (setFilter refKey
            (fun dref => (genSetFor n K).any
              (fun g => decide (g.name = dref.name) && (killRules g.level).contains dref.level))
            (duGet d K)))
        (genSetFor n K) := by
  cases K <;>
    simp [duUpdate, referenceTypes, duUpdateLevel, duGet, duSet]

theorem SetWF_genSetFor (n : DefUse) (K : ReferenceType) :
    SetWF refKey (genSetFor n K) := by
  cases K
  · exact SetWF_nil refKey
  · exact SetWF_setUnion refKey _ _
  · exact SetWF_setUnion refKey _ _

/-- C3: the per-statement transfer.  For each reference kind `K`, a ref is
in the updated block state iff it was genned (the gen table: `USE` gens
the statement's Updates and Definitions, `UPDATE` gens its Definitions,
`DEFINITION` gens nothing) or it was already in `blockIn[K]`, was not
killed — i.e. no genned ref shares its name with the kill table
permitting (`DEFINITION` and `UPDATE` kill Definitions and Updates, `USE`
kills nothing) — and is not superseded by a genned ref with its identity
key (the union is keyed, so a same-key genned ref replaces the old
entry). -/
theorem c3_gen_kill_transfer (d n : DefUse) (hd : DefUseWF d)
    (K : ReferenceType) (r : Ref) :
    r ∈ duGet (duUpdate d n) K ↔
      r ∈ genSetFor n K ∨
        (r ∈ duGet d K ∧
          ¬ (∃ g ∈ genSetFor n K, g.name = r.name ∧ r.level ∈ killRules g.level) ∧
          refKey r ∉ setKeys refKey (genSetFor n K)) := by
  have hA : SetWF refKey (duGet d K) := by
    rcases hd with ⟨h1, h2, h3⟩
    cases K <;> assumption
  have hGen : SetWF refKey (genSetFor n K) := SetWF_genSetFor n K
  rw [duGet_duUpdate d n K]
  rw [mem_setUnion_iff refKey _ _ r (SetWF_setMinus refKey _ _) hGen]
  rw [mem_setMinus_iff refKey _ _ r hA]
  constructor
  · rintro (hg | ⟨⟨hmem, hnothas⟩, hnk⟩)
    · exact Or.inl hg
    · refine Or.inr ⟨hmem, ?_, hnk⟩
      rintro ⟨g, hgmem, hgname, hglev⟩
      apply hnothas
      apply (setHas_iff refKey _ r).mpr
      refine ⟨r, ?_, rfl⟩
      rw [mem_setFilter_iff refKey _ _ r hA]
      refine ⟨hmem, ?_⟩
      apply List.any_eq_true.mpr
      refine ⟨g, hgmem, ?_⟩
      simp only [Bool.and_eq_true, decide_eq_true_eq]
      exact ⟨hgname, List.elem_iff.mpr hglev⟩
  · rintro (hg | ⟨hmem, hnkill, hnk⟩)
    · exact Or.inl hg
    · refine Or.inr ⟨⟨hmem, ?_⟩, hnk⟩
      intro hhas
      rcases (setHas_iff refKey _ r).mp hhas with ⟨y, hy, hky⟩
      have hyA : y ∈ duGet d K :=
        ((mem_setFilter_iff refKey _ _ y hA).mp hy).1
      have hyr : y = r := mem_key_inj refKey _ hA y r hyA hmem hky
      subst hyr
      have hcond := ((mem_setFilter_iff refKey _ _ y hA).mp hy).2
      rcases List.any_eq_true.mp hcond with ⟨g, hgmem, hgc⟩
      simp only [Bool.and_eq_true, decide_eq_true_eq] at hgc
      exact hnkill ⟨g, hgmem, hgc.1, List.elem_iff.mp hgc.2⟩

/-- C3 witness: the transfer characterisation at a concrete block state
and statement triple (a definition of `x` incoming, an update of `x`
genned), at kind `USE`. -/
theorem c3_gen_kill_transfer_witness :
    DefUseWF duA ∧
      (refX ∈ duGet (duUpdate duA duB) ReferenceType.USE ↔
        refX ∈ genSetFor duB ReferenceType.USE ∨
          (refX ∈ duGet duA ReferenceType.USE ∧
            ¬ (∃ g ∈ genSetFor duB ReferenceType.USE,
                g.name = refX.name ∧ refX.level ∈ killRules g.level) ∧
            refKey refX ∉ setKeys refKey (genSetFor duB ReferenceType.USE))) :=
  ⟨by decide,
    c3_gen_kill_transfer duA duB (by decide) ReferenceType.USE refX⟩

theorem assocLookup_cons {K A : Type} [DecidableEq K] (p : K × A) (rest : List (K × A))
    (key : K) :
    assocLookup (p :: rest) key = if p.1 = key then some p.2 else assocLookup rest key := by
  unfold assocLookup
  by_cases hp : p.1 = key
  · rw [List.find?_cons_of_pos _ (by simp [hp]), if_pos hp]
    rfl
  · rw [List.find?_cons_of_neg _ (by simp [hp]), if_neg hp]

theorem assocUpdate_cons {K A : Type} [DecidableEq K] (p : K × A) (rest : List (K × A))
    (key : K) (f : A → A) :
    assocUpdate (p :: rest) key f
      = (if p.1 = key then (p.1, f p.2) else p) :: assocUpdate rest key f := rfl

theorem assocLookup_mem {K A : Type} [DecidableEq K] (l : List (K × A)) (key : K) (v : A)
    (h : assocLookup l key = some v) : (key, v) ∈ l := by
  induction l with
  | nil => cases h
  | cons p rest ih =>
    rw [assocLookup_cons] at h
    by_cases hp : p.1 = key
    · rw [if_pos hp] at h
      simp only [Option.some.injEq] at h
      subst h
      subst hp
      exact List.mem_cons_self _ _
    · rw [if_neg hp] at h
      exact List.mem_cons_of_mem _ (ih h)

theorem assocLookup_isNone_iff {K A : Type} [DecidableEq K] (l : List (K × A)) (key : K) :
    assocLookup l key = none ↔ key ∉ l.map Prod.fst := by
  induction l with
  | nil => simp [assocLookup]
  | cons p rest ih =>
    rw [assocLookup_cons]
    by_cases hp : p.1 = key
    · rw [if_pos hp]
      simp [hp]
    · rw [if_neg hp]
      rw [ih]
      simp only [List.map_cons, List.mem_cons]
      constructor
      · intro h hk
        rcases hk with hk | hk
        · exact hp hk.symm
        · exact h hk
      · intro h hk
        exact h (Or.inr hk)

theorem assocLookup_some_of_mem_keys {K A : Type} [DecidableEq K] (l : List (K × A)) (key : K)
    (h : key ∈ l.map Prod.fst) : ∃ v, assocLookup l key = some v := by
  rcases ho : assocLookup l key with _ | v
  · exact absurd ((assocLookup_isNone_iff l key).mp ho) (by simpa using h)
  · exact ⟨v, rfl⟩

theorem map_fst_assocUpdate {K A : Type} [DecidableEq K] (l : List (K × A)) (key : K)
    (f : A → A) : (assocUpdate l key f).map Prod.fst = l.map Prod.fst := by
  unfold assocUpdate
  rw [List.map_map]
  apply List.map_congr_left
  intro p _
  by_cases hp : p.1 = key <;> simp [hp]

theorem assocLookup_assocUpdate_self {K A : Type} [DecidableEq K] (l : List (K × A))
    (key : K) (f : A → A) :
    assocLookup (assocUpdate l key f) key = (assocLookup l key).map f := by
  induction l with
  | nil => rfl
  | cons p rest ih =>
    rw [assocUpdate_cons, assocLookup_cons, assocLookup_cons]
    by_cases hp : p.1 = key
    · rw [if_pos hp, if_pos hp]
      rw [if_pos (by simp [hp] : ((p.1, f p.2) : K × A).1 = key)]
      rfl
    · rw [if_neg hp, if_neg hp]
      rw [if_neg (by simp [hp] : ¬ ((p : K × A)).1 = key)]
      exact ih

theorem assocLookup_assocUpdate_ne {K A : Type} [DecidableEq K] (l : List (K × A))
    (key key2 : K) (f : A → A) (h : key2 ≠ key) :
    assocLookup (assocUpdate l key f) key2 = assocLookup l key2 := by
  induction l with
  | nil => rfl
  | cons p rest ih =>
    rw [assocUpdate_cons, assocLookup_cons, assocLookup_cons]
    by_cases hp : p.1 = key
    · rw [if_pos hp]
      have hc1 : ¬ ((p.1, f p.2) : K × A).1 = key2 := by
        simp only
        rw [hp]
        exact fun hh => absurd hh.symm h
      have hc2 : ¬ p.1 = key2 := by
        rw [hp]
        exact fun hh => absurd hh.symm h
      rw [if_neg hc1, if_neg hc2]
      exact ih
    · rw [if_neg hp]
      by_cases hp2 : p.1 = key2
      · rw [if_pos hp2, if_pos hp2]
      · rw [if_neg hp2, if_neg hp2]
        exact ih

theorem setRemove_eq_filter_str (l : JSet String) (x : String) :
    setRemove strKey l x = l.filter (fun y => decide (¬ y = x)) := by
  unfold setRemove
  by_cases h : setHas strKey l x
  · rw [if_pos h]
    rfl
  · rw [if_neg h]
    have : ∀ y ∈ l, (fun y => decide (¬ y = x)) y = true := by
      intro y hy
      simp only [decide_eq_true_eq]
      intro hyx
      subst hyx
      exact h (List.any_eq_true.mpr ⟨y, hy, by simp⟩)
    exact (List.filter_eq_self.mpr this).symm

theorem mem_setAdd_single_str (w : JSet String) (m x : String) :
    x ∈ setAdd strKey w [m] ↔ x = m ∨ x ∈ w := by
  show x ∈ setStore strKey w m ↔ _
  rw [mem_setStore strKey w m x]
  unfold strKey
  constructor
  · rintro (rfl | ⟨hx, _⟩)
    · exact Or.inl rfl
    · exact Or.inr hx
  · rintro (rfl | hx)
    · exact Or.inl rfl
    · by_cases hxm : x = m
      · exact Or.inl hxm
      · exact Or.inr ⟨hx, hxm⟩

theorem edge_symm {g : JGraph} (hwf : GraphWF g) (n m : String) :
    m ∈ edgeTargets g n ↔ n ∈ inNbrs g m := by
  obtain ⟨-, -, -, -, -, hso, hsi, -, -⟩ := hwf
  constructor
  · intro hm
    unfold edgeTargets at hm
    rcases ho : assocLookup g.outgoing n with _ | s
    · rw [ho] at hm
      cases hm
    · rw [ho] at hm
      exact hso (n, s) (assocLookup_mem _ _ _ ho) m hm
  · intro hn
    unfold inNbrs at hn
    rcases ho : assocLookup g.incoming m with _ | s
    · rw [ho] at hn
      cases hn
    · rw [ho] at hn
      exact hsi (m, s) (assocLookup_mem _ _ _ ho) n hn

theorem edge_endpoints {g : JGraph} (hwf : GraphWF g) (n m : String)
    (h : m ∈ edgeTargets g n) : n ∈ g.nodes ∧ m ∈ g.nodes := by
  obtain ⟨-, -, -, -, -, -, -, hep, -⟩ := hwf
  unfold edgeTargets at h
  rcases ho : assocLookup g.outgoing n with _ | s
  · rw [ho] at h
    cases h
  · rw [ho] at h
    have := hep (n, s) (assocLookup_mem _ _ _ ho)
    exact ⟨this.1, this.2 m h⟩

theorem inc_absent_iff {g : JGraph} (hwf : GraphWF g) (x : String) :
    assocLookup g.incoming x = none ↔ inNbrs g x = [] := by
  obtain ⟨-, -, -, -, -, -, -, -, hne⟩ := hwf
  constructor
  · intro h
    unfold inNbrs
    rw [h]
    rfl
  · intro h
    rcases ho : assocLookup g.incoming x with _ | s
    · rfl
    · exfalso
      apply hne (x, s) (assocLookup_mem _ _ _ ho)
      unfold inNbrs at h
      rw [ho] at h
      exact h

theorem SetWF_edgeTargets {g : JGraph} (hwf : GraphWF g) (n : String) :
    SetWF strKey (edgeTargets g n) := by
  obtain ⟨-, -, -, hsw, -, -, -, -, -⟩ := hwf
  unfold edgeTargets
  rcases ho : assocLookup g.outgoing n with _ | s
  · exact SetWF_nil strKey
  · exact hsw (n, s) (assocLookup_mem _ _ _ ho)

theorem removeList_str (ms : List String) (s : JSet String) :
    ms.foldl (fun s m => setRemove strKey s m) s
      = s.filter (fun y => decide (y ∉ ms)) := by
  induction ms generalizing s with
  | nil =>
    simp only [List.foldl_nil]
    exact (List.filter_eq_self.mpr (by intro y _; simp)).symm
  | cons m rest ih =>
    simp only [List.foldl_cons]
    rw [ih (setRemove strKey s m), setRemove_eq_filter_str, List.filter_filter]
    apply List.filter_congr
    intro y _
    by_cases h1 : y = m <;> by_cases h2 : y ∈ rest <;> simp [h1, h2]

theorem filter_setRemove_str (s : JSet String) (m : String) (rest : List String) :
    (setRemove strKey s m).filter (fun y => decide (y ∉ rest))
      = s.filter (fun y => decide (y ∉ m :: rest)) := by
  rw [setRemove_eq_filter_str, List.filter_filter]
  apply List.filter_congr
  intro y _
  by_cases h1 : y = m <;> by_cases h2 : y ∈ rest <;> simp [h1, h2]

theorem topoVisitEdge_sorted (n : String) (st : TopoState) (m : String) :
    (topoVisitEdge n st m).sorted = st.sorted := by
  unfold topoVisitEdge
  rcases assocLookup (assocUpdate st.inc m (fun s => setRemove strKey s n)) m with _ | s
  · rfl
  · by_cases h : setEmpty s <;> simp [h]

theorem topoVisitEdge_out (n : String) (st : TopoState) (m : String) :
    (topoVisitEdge n st m).out = assocUpdate st.out n (fun s => setRemove strKey s m) := by
  unfold topoVisitEdge
  rcases assocLookup (assocUpdate st.inc m (fun s => setRemove strKey s n)) m with _ | s
  · rfl
  · by_cases h : setEmpty s <;> simp [h]

theorem topoVisitEdge_inc (n : String) (st : TopoState) (m : String) :
    (topoVisitEdge n st m).inc = assocUpdate st.inc m (fun s => setRemove strKey s n) := by
  unfold topoVisitEdge
  rcases assocLookup (assocUpdate st.inc m (fun s => setRemove strKey s n)) m with _ | s
  · rfl
  · by_cases h : setEmpty s <;> simp [h]

theorem topoVisitEdge_work_iff (n : String) (st : TopoState) (m : String) (x : String) :
    x ∈ (topoVisitEdge n st m).work ↔
      x ∈ st.work ∨ (x = m ∧
        ∃ s0, assocLookup st.inc m = some s0 ∧ setRemove strKey s0 n = []) := by
  unfold topoVisitEdge
  dsimp only
  rw [assocLookup_assocUpdate_self]
  rcases ho : assocLookup st.inc m with _ | s0
  · dsimp only [Option.map]
    simp
  · dsimp only [Option.map]
    by_cases he : setEmpty (setRemove strKey s0 n)
    · rw [if_pos he]
      rw [mem_setAdd_single_str]
      unfold setEmpty at he
      rw [List.isEmpty_iff] at he
      constructor
      · rintro (rfl | hx)
        · exact Or.inr ⟨rfl, s0, rfl, he⟩
        · exact Or.inl hx
      · rintro (hx | ⟨rfl, s1, hs1, _⟩)
        · exact Or.inr hx
        · exact Or.inl rfl
    · rw [if_neg he]
      constructor
      · exact Or.inl
      · rintro (hx | ⟨rfl, s1, hs1, hrem⟩)
        · exact hx
        · exfalso
          apply he
          simp only [Option.some.injEq] at hs1
          subst hs1
          unfold setEmpty
          rw [hrem]
          rfl

theorem topoVisitEdge_workWF (n : String) (st : TopoState) (m : String)
    (h : SetWF strKey st.work) : SetWF strKey (topoVisitEdge n st m).work := by
  unfold topoVisitEdge
  dsimp only
  rcases ho : assocLookup (assocUpdate st.inc m (fun s => setRemove strKey s n)) m with _ | s
  · exact h
  · dsimp only
    by_cases he : setEmpty s
    · rw [if_pos he]
      exact SetWF_setAdd strKey _ _ h
    · rw [if_neg he]
      exact h

theorem topoVisit_fold_spec (n : String) (ms : List String) (hms : ms.Nodup)
    (stB : TopoState) :
    (ms.foldl (topoVisitEdge n) stB).sorted = stB.sorted
    ∧ (ms.foldl (topoVisitEdge n) stB).out.map Prod.fst = stB.out.map Prod.fst
    ∧ (ms.foldl (topoVisitEdge n) stB).inc.map Prod.fst = stB.inc.map Prod.fst
    ∧ assocLookup (ms.foldl (topoVisitEdge n) stB).out n
        = (assocLookup stB.out n).map (fun s => s.filter (fun y => decide (y ∉ ms)))
    ∧ (∀ x, x ≠ n → assocLookup (ms.foldl (topoVisitEdge n) stB).out x
        = assocLookup stB.out x)
    ∧ (∀ m, m ∈ ms → assocLookup (ms.foldl (topoVisitEdge n) stB).inc m
        = (assocLookup stB.inc m).map (fun s => setRemove strKey s n))
    ∧ (∀ m, m ∉ ms → assocLookup (ms.foldl (topoVisitEdge n) stB).inc m
        = assocLookup stB.inc m)
    ∧ (SetWF strKey stB.work → SetWF strKey (ms.foldl (topoVisitEdge n) stB).work)
    ∧ (∀ x, x ∈ (ms.foldl (topoVisitEdge n) stB).work ↔ x ∈ stB.work ∨ (x ∈ ms ∧
        ∃ s0, assocLookup stB.inc x = some s0 ∧ setRemove strKey s0 n = [])) := by
  induction ms generalizing stB with
  | nil =>
    refine ⟨rfl, rfl, rfl, ?_, fun x _ => rfl, fun m hm => absurd hm (List.not_mem_nil m),
      fun m _ => rfl, fun h => h, fun x => ?_⟩
    · show assocLookup stB.out n
        = (assocLookup stB.out n).map (fun s => s.filter (fun y => decide (y ∉ ([] : List String))))
      rcases ho : assocLookup stB.out n with _ | s
      · rfl
      · simp only [Option.map_some', Option.some.injEq]
        exact (List.filter_eq_self.mpr (by intro y _; simp)).symm
    · show x ∈ stB.work ↔ x ∈ stB.work ∨ (x ∈ ([] : List String) ∧
        ∃ s0, assocLookup stB.inc x = some s0 ∧ setRemove strKey s0 n = [])
      constructor
      · exact Or.inl
      · rintro (h | ⟨h0, _⟩)
        · exact h
        · exact absurd h0 (List.not_mem_nil x)
  | cons m rest ih =>
    have hmrest : m ∉ rest := (List.nodup_cons.mp hms).1
    have hrest : rest.Nodup := (List.nodup_cons.mp hms).2
    have hfold : (m :: rest).foldl (topoVisitEdge n) stB
        = rest.foldl (topoVisitEdge n) (topoVisitEdge n stB m) := rfl
    set stB1 := topoVisitEdge n stB m with hstB1
    obtain ⟨ihSorted, ihOutKeys, ihIncKeys, ihOutN, ihOutX, ihIncIn, ihIncOut, ihWF, ihWork⟩ :=
      ih hrest stB1
    have hsorted1 : stB1.sorted = stB.sorted := topoVisitEdge_sorted n stB m
    have hout1 : stB1.out = assocUpdate stB.out n (fun s => setRemove strKey s m) :=
      topoVisitEdge_out n stB m
    have hinc1 : stB1.inc = assocUpdate stB.inc m (fun s => setRemove strKey s n) :=
      topoVisitEdge_inc n stB m
    rw [hfold]
    refine ⟨?_, ?_, ?_, ?_, ?_, ?_, ?_, ?_, ?_⟩
    · rw [ihSorted, hsorted1]
    · rw [ihOutKeys, hout1, map_fst_assocUpdate]
    · rw [ihIncKeys, hinc1, map_fst_assocUpdate]
    · rw [ihOutN, hout1, assocLookup_assocUpdate_self]
      rcases assocLookup stB.out n with _ | s
      · rfl
      · simp only [Option.map_some', Option.some.injEq]
        exact filter_setRemove_str s m rest
    · intro x hx
      rw [ihOutX x hx, hout1, assocLookup_assocUpdate_ne _ _ _ _ hx]
    · intro m2 hm2
      rcases List.mem_cons.mp hm2 with rfl | hm2r
      · rw [ihIncOut m2 hmrest, hinc1, assocLookup_assocUpdate_self]
      · have hne : m2 ≠ m := fun hh => hmrest (hh ▸ hm2r)
        rw [ihIncIn m2 hm2r, hinc1, assocLookup_assocUpdate_ne _ _ _ _ hne]
    · intro m2 hm2
      have hm2r : m2 ∉ rest := fun hh => hm2 (List.mem_cons_of_mem _ hh)
      have hne : m2 ≠ m := fun hh => hm2 (hh ▸ List.mem_cons_self _ _)
      rw [ihIncOut m2 hm2r, hinc1, assocLookup_assocUpdate_ne _ _ _ _ hne]
    · intro hwf
      exact ihWF (topoVisitEdge_workWF n stB m hwf)
    · intro x
      rw [ihWork x, topoVisitEdge_work_iff n stB m x]
      constructor
      · rintro ((hx | ⟨rfl, s0, hs0, hrem⟩) | ⟨hxr, s0, hs0, hrem⟩)
        · exact Or.inl hx
        · exact Or.inr ⟨List.mem_cons_self _ _, s0, hs0, hrem⟩
        · have hne : x ≠ m := fun hh => hmrest (hh ▸ hxr)
          rw [hinc1, assocLookup_assocUpdate_ne _ _ _ _ hne] at hs0
          exact Or.inr ⟨List.mem_cons_of_mem _ hxr, s0, hs0, hrem⟩
      · rintro (hx | ⟨hxms, s0, hs0, hrem⟩)
        · exact Or.inl (Or.inl hx)
        · rcases List.mem_cons.mp hxms with rfl | hxr
          · exact Or.inl (Or.inr ⟨rfl, s0, hs0, hrem⟩)
          · have hne : x ≠ m := fun hh => hmrest (hh ▸ hxr)
            refine Or.inr ⟨hxr, s0, ?_, hrem⟩
            rw [hinc1, assocLookup_assocUpdate_ne _ _ _ _ hne]
            exact hs0

theorem SetWF_setRemove {T : Type} (k : T → String) (l : JSet T) (x : T)
    (h : SetWF k l) : SetWF k (setRemove k l x) := by
  unfold setRemove
  by_cases hp : setHas k l x
  · rw [if_pos hp]
    exact SetWF_filter k l _ h
  · rw [if_neg hp]
    exact h

theorem nodup_of_SetWF_str (l : JSet String) (h : SetWF strKey l) : l.Nodup := by
  unfold SetWF setKeys strKey at h
  simpa using h

theorem mem_setRemove_str (l : JSet String) (x y : String) :
    y ∈ setRemove strKey l x ↔ y ∈ l ∧ y ≠ x := by
  rw [mem_setRemove_iff]
  unfold strKey
  exact Iff.rfl

theorem filter_notmem_concat (l : List String) (sorted : List String) (n : String)
    (hnl : n ∉ l) :
    l.filter (fun y => decide (y ∉ sorted ++ [n]))
      = l.filter (fun y => decide (y ∉ sorted)) := by
  apply List.filter_congr
  intro y hy
  have hyn : y ≠ n := fun hh => hnl (hh ▸ hy)
  by_cases hys : y ∈ sorted <;> simp [hys, hyn]

theorem filter_concat_as_remove (l : List String) (sorted : List String) (n : String) :
    l.filter (fun y => decide (y ∉ sorted ++ [n]))
      = setRemove strKey (l.filter (fun y => decide (y ∉ sorted))) n := by
  rw [setRemove_eq_filter_str, List.filter_filter]
  apply List.filter_congr
  intro y _
  by_cases h1 : y ∈ sorted <;> by_cases h2 : y = n <;> simp [h1, h2]

theorem topoStep_inv (g : JGraph) (hwf : GraphWF g) (st : TopoState) (hinv : TopoInv g st)
    (n : String) (wrest : List String) (hwork : st.work = n :: wrest) :
    TopoInv g ((edgeTargets g n).foldl (topoVisitEdge n)
      { sorted := st.sorted ++ [n], work := setRemove strKey st.work n,
        out := st.out, inc := st.inc }) := by
  obtain ⟨iNodup, iNodes, iWWF, iWNodes, iWNS, iOutK, iIncK, iIncC, iOutC, iWIff, iPred, iCons⟩ :=
    hinv
  have hnwork : n ∈ st.work := by rw [hwork]; exact List.mem_cons_self _ _
  have hnnodes : n ∈ g.nodes := iWNodes n hnwork
  have hnns : n ∉ st.sorted := iWNS n hnwork
  have hnpred : (inNbrs g n).filter (fun y => decide (y ∉ st.sorted)) = [] :=
    ((iWIff n hnnodes).mp hnwork).2
  set ms := edgeTargets g n with hms
  have hmsnodup : ms.Nodup := nodup_of_SetWF_str ms (SetWF_edgeTargets hwf n)
  set st1 : TopoState :=
    { sorted := st.sorted ++ [n], work := setRemove strKey st.work n,
      out := st.out, inc := st.inc } with hst1
  obtain ⟨fSorted, fOutK, fIncK, fOutN, fOutX, fIncIn, fIncOut, fWWF, fWIff⟩ :=
    topoVisit_fold_spec n ms hmsnodup st1
  set stF := ms.foldl (topoVisitEdge n) st1 with hstF
  have hsorted2 : stF.sorted = st.sorted ++ [n] := fSorted
  have hnotmem2 : ∀ x, x ∉ st.sorted ++ [n] ↔ x ∉ st.sorted ∧ x ≠ n := by
    intro x
    simp [List.mem_append]
  -- a node of `ms` is never n itself nor already sorted
  have hmsn : n ∉ ms := by
    intro hin
    have hincn : n ∈ inNbrs g n := (edge_symm hwf n n).mp hin
    have : n ∈ (inNbrs g n).filter (fun y => decide (y ∉ st.sorted)) :=
      List.mem_filter.mpr ⟨hincn, by simp [hnns]⟩
    rw [hnpred] at this
    exact absurd this (List.not_mem_nil n)
  have hmssorted : ∀ x ∈ ms, x ∉ st.sorted := by
    intro x hx hxs
    exact hnns (iPred x hxs n hx)
  -- membership in the final work set
  have hWmem : ∀ x, x ∈ stF.work ↔
      (x ∈ st.work ∧ x ≠ n) ∨ (x ∈ ms ∧
        ∃ s0, assocLookup st.inc x = some s0 ∧ setRemove strKey s0 n = []) := by
    intro x
    rw [fWIff x]
    constructor
    · rintro (hx | hx)
      · exact Or.inl ((mem_setRemove_str _ _ _).mp hx)
      · exact Or.inr hx
    · rintro (⟨hx, hxn⟩ | hx)
      · exact Or.inl ((mem_setRemove_str _ _ _).mpr ⟨hx, hxn⟩)
      · exact Or.inr hx
  -- final work members are not in the new sorted list
  have hWns : ∀ x ∈ stF.work, x ∉ st.sorted ++ [n] := by
    intro x hx
    rcases (hWmem x).mp hx with ⟨hxw, hxn⟩ | ⟨hxms, _⟩
    · rw [hnotmem2]
      exact ⟨iWNS x hxw, hxn⟩
    · rw [hnotmem2]
      refine ⟨fun hxs => hnns (iPred x hxs n hxms), fun hxn => ?_⟩
      subst hxn
      exact hmsn hxms
  -- the new current incoming formula
  have hIncC2 : ∀ m, curInc stF m
      = (inNbrs g m).filter (fun y => decide (y ∉ st.sorted ++ [n])) := by
    intro m
    by_cases hm : m ∈ ms
    · have hnin : n ∈ inNbrs g m := (edge_symm hwf n m).mp hm
      have hne : inNbrs g m ≠ [] := fun hh => by rw [hh] at hnin; cases hnin
      have hkey : m ∈ g.incoming.map Prod.fst := by
        by_contra hk
        exact hne ((inc_absent_iff hwf m).mp ((assocLookup_isNone_iff _ _).mpr hk))
      rcases assocLookup_some_of_mem_keys st.inc m (by rw [iIncK]; exact hkey) with ⟨s0, hs0⟩
      have hcur : curInc st m = s0 := by
        unfold curInc
        rw [hs0]
        rfl
      have : curInc stF m = setRemove strKey s0 n := by
        unfold curInc
        rw [fIncIn m hm]
        show ((assocLookup st.inc m).map (fun s => setRemove strKey s n)).getD [] = _
        rw [hs0]
        rfl
      rw [this]
      rw [show s0 = (inNbrs g m).filter (fun y => decide (y ∉ st.sorted)) from
        hcur ▸ iIncC m, ← filter_concat_as_remove]
    · have hnin : n ∉ inNbrs g m := fun hh => hm ((edge_symm hwf n m).mpr hh)
      have : curInc stF m = curInc st m := by
        unfold curInc
        rw [fIncOut m hm]
      rw [this, iIncC m, filter_notmem_concat _ _ _ hnin]
  -- the new current outgoing formula
  have hOutC2 : ∀ x, curOut stF x
      = if x ∈ st.sorted ++ [n] then [] else edgeTargets g x := by
    intro x
    by_cases hx : x = n
    · subst hx
      have hxin : x ∈ st.sorted ++ [x] := by simp
      rw [if_pos hxin]
      unfold curOut
      rw [fOutN]
      rcases ho : assocLookup st.out x with _ | s
      · rfl
      · have hs : s = edgeTargets g x := by
          have := iOutC x
          unfold curOut at this
          rw [ho] at this
          rw [if_neg hnns] at this
          exact this
        show ((some s).map (fun s => s.filter (fun y => decide (y ∉ ms)))).getD [] = []
        simp only [Option.map_some', Option.getD_some]
        rw [hs, ← hms]
        exact List.filter_eq_nil_iff.mpr (by intro y hy; simp [hy])
    · have : curOut stF x = curOut st x := by
        unfold curOut
        rw [fOutX x hx]
      rw [this, iOutC x]
      by_cases hxs : x ∈ st.sorted
      · rw [if_pos hxs, if_pos (by simp [hxs])]
      · rw [if_neg hxs, if_neg (by simp [hxs, hx])]
  refine ⟨?_, ?_, ?_, ?_, ?_, ?_, ?_, ?_, ?_, ?_, ?_, ?_⟩
  · rw [hsorted2]
    refine List.Nodup.append iNodup (List.nodup_singleton n) ?_
    intro a ha hb
    simp only [List.mem_singleton] at hb
    subst hb
    exact hnns ha
  · rw [hsorted2]
    intro x hx
    rcases List.mem_append.mp hx with hx | hx
    · exact iNodes x hx
    · simp only [List.mem_singleton] at hx
      subst hx
      exact hnnodes
  · exact fWWF (SetWF_setRemove strKey st.work n iWWF)
  · intro x hx
    rcases (hWmem x).mp hx with ⟨hxw, _⟩ | ⟨hxms, _⟩
    · exact iWNodes x hxw
    · exact (edge_endpoints hwf n x hxms).2
  · intro x hx
    rw [hsorted2] at *
    exact hWns x hx
  · rw [fOutK]
    exact iOutK
  · rw [fIncK]
    exact iIncK
  · intro m
    rw [hsorted2] at *
    exact hIncC2 m
  · intro x
    rw [hsorted2] at *
    exact hOutC2 x
  · intro x hxnodes
    rw [hsorted2] at *
    rw [hWmem x]
    constructor
    · rintro hcase
      refine ⟨hWns x ((hWmem x).mpr hcase), ?_⟩
      rcases hcase with ⟨hxw, hxn⟩ | ⟨hxms, s0, hs0, hrem⟩
      · have hold := ((iWIff x hxnodes).mp hxw).2
        rw [filter_concat_as_remove, hold]
        rfl
      · have hcur : curInc st x = s0 := by
          unfold curInc
          rw [hs0]
          rfl
        rw [filter_concat_as_remove, ← iIncC x, hcur]
        exact hrem
    · rintro ⟨hxns2, hxf2⟩
      rw [hnotmem2] at hxns2
      by_cases hnx : n ∈ inNbrs g x
      · have hxms : x ∈ ms := (edge_symm hwf n x).mpr hnx
        have hne : inNbrs g x ≠ [] := fun hh => by rw [hh] at hnx; cases hnx
        have hkey : x ∈ g.incoming.map Prod.fst := by
          by_contra hk
          exact hne ((inc_absent_iff hwf x).mp ((assocLookup_isNone_iff _ _).mpr hk))
        rcases assocLookup_some_of_mem_keys st.inc x (by rw [iIncK]; exact hkey) with ⟨s0, hs0⟩
        have hcur : curInc st x = s0 := by
          unfold curInc
          rw [hs0]
          rfl
        refine Or.inr ⟨hxms, s0, hs0, ?_⟩
        rw [← hcur, iIncC x, ← filter_concat_as_remove]
        exact hxf2
      · have hxf : (inNbrs g x).filter (fun y => decide (y ∉ st.sorted)) = [] := by
          rw [← filter_notmem_concat (inNbrs g x) st.sorted n hnx]
          exact hxf2
        exact Or.inl ⟨(iWIff x hxnodes).mpr ⟨hxns2.1, hxf⟩, hxns2.2⟩
  · intro m hm
    rw [hsorted2] at hm ⊢
    intro p hp
    rcases List.mem_append.mp hm with hms2 | hmn
    · exact List.mem_append.mpr (Or.inl (iPred m hms2 p hp))
    · simp only [List.mem_singleton] at hmn
      subst hmn
      have hpinc : p ∈ inNbrs g m := (edge_symm hwf p m).mp hp
      by_cases hps : p ∈ st.sorted
      · exact List.mem_append.mpr (Or.inl hps)
      · exfalso
        have : p ∈ (inNbrs g m).filter (fun y => decide (y ∉ st.sorted)) :=
          List.mem_filter.mpr ⟨hpinc, by simp [hps]⟩
        rw [hnpred] at this
        exact absurd this (List.not_mem_nil p)
  · rw [hsorted2]
    rw [List.pairwise_append]
    refine ⟨iCons, List.pairwise_singleton _ _, ?_⟩
    intro a ha b hb
    simp only [List.mem_singleton] at hb
    subst hb
    intro hE
    exact hnns (iPred a ha b hE)

theorem topoLoop_succ (fuel : Nat) (st : TopoState) :
    topoLoop (fuel + 1) st =
      match st.work with
      | [] => st
      | n :: _ =>
        let st1 : TopoState :=
          { sorted := st.sorted ++ [n], work := setRemove strKey st.work n,
            out := st.out, inc := st.inc }
        match assocLookup st1.out n with
        | none => topoLoop fuel st1
        | some os => topoLoop fuel (os.foldl (topoVisitEdge n) st1) := rfl

theorem topoInit_inv (g : JGraph) (hwf : GraphWF g) :
    TopoInv g { sorted := [],
                work := mkSet strKey (g.nodes.filter (fun n => (assocLookup g.incoming n).isNone)),
                out := g.outgoing, inc := g.incoming } := by
  have hmemw : ∀ x, x ∈ mkSet strKey
      (g.nodes.filter (fun n => (assocLookup g.incoming n).isNone))
      ↔ x ∈ g.nodes ∧ assocLookup g.incoming x = none := by
    intro x
    rw [mem_mkSet_inj strKey (fun a b h => h) _ x, List.mem_filter]
    simp [Option.isNone_iff_eq_none]
  refine ⟨List.nodup_nil, fun x hx => absurd hx (List.not_mem_nil x), SetWF_mkSet strKey _,
    ?_, fun x _ => List.not_mem_nil x, rfl, rfl, ?_, ?_, ?_,
    fun m hm => absurd hm (List.not_mem_nil m), List.Pairwise.nil⟩
  · intro x hx
    exact ((hmemw x).mp hx).1
  · intro m
    have hfil : (inNbrs g m).filter (fun y => decide (y ∉ ([] : List String))) = inNbrs g m :=
      List.filter_eq_self.mpr (fun y _ => by simp)
    dsimp only
    rw [hfil]
    rfl
  · intro n
    dsimp only
    rw [if_neg (List.not_mem_nil n)]
    rfl
  · intro x hxnodes
    dsimp only
    rw [hmemw x]
    constructor
    · intro ⟨_, habs⟩
      refine ⟨List.not_mem_nil x, ?_⟩
      rw [(inc_absent_iff hwf x).mp habs]
      rfl
    · intro ⟨_, hfil⟩
      refine ⟨hxnodes, (inc_absent_iff hwf x).mpr ?_⟩
      have hid : (inNbrs g x).filter (fun y => decide (y ∉ ([] : List String))) = inNbrs g x :=
        List.filter_eq_self.mpr (fun y _ => by simp)
      rw [← hid]
      exact hfil

theorem sorted_lt_nodes (g : JGraph) (st : TopoState) (hinv : TopoInv g st)
    (n : String) (hn : n ∈ st.work) :
    st.sorted.length < g.nodes.length := by
  have hnodup : (st.sorted ++ [n]).Nodup := by
    refine List.Nodup.append hinv.sortedNodup (List.nodup_singleton n) ?_
    intro a ha hb
    simp only [List.mem_singleton] at hb
    subst hb
    exact hinv.workNotSorted _ hn ha
  have hsub : (st.sorted ++ [n]) ⊆ g.nodes := by
    intro x hx
    rcases List.mem_append.mp hx with hx | hx
    · exact hinv.sortedNodes x hx
    · simp only [List.mem_singleton] at hx
      subst hx
      exact hinv.workNodes _ hn
  have h1 : (st.sorted ++ [n]).toFinset.card = st.sorted.length + 1 := by
    rw [List.toFinset_card_of_nodup hnodup]
    simp
  have h2 : (st.sorted ++ [n]).toFinset ⊆ g.nodes.toFinset := by
    intro x hx
    rw [List.mem_toFinset] at hx ⊢
    exact hsub hx
  have h3 := Finset.card_le_card h2
  have h4 : g.nodes.toFinset.card ≤ g.nodes.length := g.nodes.toFinset_card_le
  omega

theorem topoLoop_spec (g : JGraph) (hwf : GraphWF g) :
    ∀ (fuel : Nat) (st : TopoState), TopoInv g st →
      g.nodes.length - st.sorted.length < fuel →
      TopoInv g (topoLoop fuel st) ∧ (topoLoop fuel st).work = [] := by
  intro fuel
  induction fuel with
  | zero => intro st _ hlt; exact absurd hlt (Nat.not_lt_zero _)
  | succ fuel ih =>
    intro st hinv hlt
    rcases hw : st.work with _ | ⟨n, wrest⟩
    · have hred : topoLoop (fuel + 1) st = st := by
        rw [topoLoop_succ, hw]
      rw [hred]
      exact ⟨hinv, hw⟩
    · have hnwork : n ∈ st.work := by rw [hw]; exact List.mem_cons_self _ _
      have hnns : n ∉ st.sorted := hinv.workNotSorted n hnwork
      have hlen := sorted_lt_nodes g st hinv n hnwork
      have hinv2 : TopoInv g ((edgeTargets g n).foldl (topoVisitEdge n)
          { sorted := st.sorted ++ [n], work := setRemove strKey st.work n,
            out := st.out, inc := st.inc }) :=
        topoStep_inv g hwf st hinv n wrest hw
      have hsorted1 : ((edgeTargets g n).foldl (topoVisitEdge n)
          { sorted := st.sorted ++ [n], work := setRemove strKey st.work n,
            out := st.out, inc := st.inc }).sorted = st.sorted ++ [n] :=
        (topoVisit_fold_spec n (edgeTargets g n)
          (nodup_of_SetWF_str _ (SetWF_edgeTargets hwf n)) _).1
      have hstep : topoLoop (fuel + 1) st
          = topoLoop fuel ((edgeTargets g n).foldl (topoVisitEdge n)
            { sorted := st.sorted ++ [n], work := setRemove strKey st.work n,
              out := st.out, inc := st.inc }) := by
        rw [topoLoop_succ, hw]
        dsimp only
        rcases ho : assocLookup st.out n with _ | os
        · have habs : edgeTargets g n = [] := by
            have h0 : assocLookup g.outgoing n = none := by
              rw [assocLookup_isNone_iff] at ho ⊢
              rw [← hinv.outKeys]
              exact ho
            unfold edgeTargets
            rw [h0]
            rfl
          rw [habs]
          rfl
        · have hos : os = edgeTargets g n := by
            have hcur := hinv.outCur n
            unfold curOut at hcur
            rw [ho, if_neg hnns] at hcur
            exact hcur
          rw [hos]
      have hlt2 : g.nodes.length
          - ((edgeTargets g n).foldl (topoVisitEdge n)
            { sorted := st.sorted ++ [n], work := setRemove strKey st.work n,
              out := st.out, inc := st.inc }).sorted.length < fuel := by
        rw [hsorted1]
        simp only [List.length_append, List.length_singleton]
        omega
      rw [hstep]
      exact ih _ hinv2 hlt2

theorem reachesB_step (g : JGraph) (k : Nat) (n m t : String)
    (ht : t ∈ edgeTargets g n) (h : t = m ∨ reachesB g k t m = true) :
    reachesB g (k + 1) n m = true := by
  show (edgeTargets g n).any (fun t => t = m || reachesB g k t m) = true
  rw [List.any_eq_true]
  refine ⟨t, ht, ?_⟩
  simp only [Bool.or_eq_true, decide_eq_true_eq]
  exact h

theorem reachesB_elim (g : JGraph) (k : Nat) (n m : String)
    (h : reachesB g (k + 1) n m = true) :
    ∃ t ∈ edgeTargets g n, t = m ∨ reachesB g k t m = true := by
  have h2 : (edgeTargets g n).any (fun t => t = m || reachesB g k t m) = true := h
  rw [List.any_eq_true] at h2
  obtain ⟨t, ht, hp⟩ := h2
  simp only [Bool.or_eq_true, decide_eq_true_eq] at hp
  exact ⟨t, ht, hp⟩

theorem reachesB_mono (g : JGraph) :
    ∀ (k k2 : Nat), k ≤ k2 → ∀ (x y : String),
      reachesB g k x y = true → reachesB g k2 x y = true := by
  intro k
  induction k with
  | zero =>
    intro k2 _ x y h
    exact absurd h (by simp [reachesB])
  | succ k ih =>
    intro k2 hk x y h
    obtain ⟨k3, rfl⟩ : ∃ m, k2 = m + 1 := ⟨k2 - 1, by omega⟩
    obtain ⟨t, ht, hp⟩ := reachesB_elim g k x y h
    refine reachesB_step g k3 x y t ht ?_
    rcases hp with rfl | hp
    · exact Or.inl rfl
    · exact Or.inr (ih k3 (by omega) t y hp)

theorem cycle_of_preds (g : JGraph) (B : List String) (hne : B ≠ [])
    (hstep : ∀ b ∈ B, ∃ a, a ∈ B ∧ edgeE g a b) :
    ∃ x, x ∈ B ∧ reachesB g B.length x x = true := by
  classical
  have hf : ∀ b : String, ∃ a, b ∈ B → a ∈ B ∧ edgeE g a b := by
    intro b
    by_cases hb : b ∈ B
    · obtain ⟨a, ha⟩ := hstep b hb
      exact ⟨a, fun _ => ha⟩
    · exact ⟨b, fun h => absurd h hb⟩
  choose f hfs using hf
  obtain ⟨b0, hb0⟩ := List.exists_mem_of_ne_nil B hne
  have hseqB : ∀ k : Nat, f^[k] b0 ∈ B := by
    intro k
    induction k with
    | zero => exact hb0
    | succ k ihk =>
      rw [Function.iterate_succ_apply']
      exact (hfs _ ihk).1
  have hedge : ∀ k : Nat, (f^[k] b0) ∈ edgeTargets g (f^[k + 1] b0) := by
    intro k
    have h := (hfs _ (hseqB k)).2
    rw [Function.iterate_succ_apply']
    exact h
  have hreach : ∀ d i : Nat, reachesB g (d + 1) (f^[i + d + 1] b0) (f^[i] b0) = true := by
    intro d
    induction d with
    | zero =>
      intro i
      exact reachesB_step g 0 _ _ _ (hedge i) (Or.inl rfl)
    | succ d ihd =>
      intro i
      refine reachesB_step g (d + 1) _ _ (f^[i + d + 1] b0) ?_ (Or.inr (ihd i))
      exact hedge (i + d + 1)
  have key : ∀ a b : Nat, a < b → b ≤ B.length → f^[a] b0 = f^[b] b0 →
      ∃ x, x ∈ B ∧ reachesB g B.length x x = true := by
    intro a b hab hble heq
    obtain ⟨d, rfl⟩ : ∃ d, b = a + d + 1 := ⟨b - a - 1, by omega⟩
    have hr := hreach d a
    rw [← heq] at hr
    exact ⟨f^[a] b0, hseqB a, reachesB_mono g (d + 1) B.length (by omega) _ _ hr⟩
  have hcard : Fintype.card {x // x ∈ B.toFinset} < Fintype.card (Fin (B.length + 1)) := by
    rw [Fintype.card_coe, Fintype.card_fin]
    have := B.toFinset_card_le
    omega
  obtain ⟨i, j, hij, hFij⟩ := Fintype.exists_ne_map_eq_of_card_lt
    (fun k : Fin (B.length + 1) =>
      (⟨f^[k.val] b0, List.mem_toFinset.mpr (hseqB k.val)⟩ : {x // x ∈ B.toFinset})) hcard
  have hvalne : i.val ≠ j.val := fun h => hij (Fin.ext h)
  have hfeq : f^[i.val] b0 = f^[j.val] b0 := congrArg Subtype.val hFij
  rcases Nat.lt_or_ge i.val j.val with hlt | hge
  · exact key i.val j.val hlt (by have := j.isLt; omega) hfeq
  · have hlt : j.val < i.val := by omega
    exact key j.val i.val hlt (by have := i.isLt; omega) hfeq.symm

/-- C7 (amended): `topoSort` runs Kahn's algorithm destructively on the
graph's own adjacency maps (the returned post-call graph differs from the
input), and when the graph is acyclic the emitted list is a permutation of
all nodes in which no later node has an edge to an earlier one.  (On a
cyclic graph the list omits every node on or downstream of a cycle, so it
is not a total order of the present nodes.) -/
theorem c7_toposort_amended (g : JGraph) (hwf : GraphWF g) (hacyc : acyclicB g = true) :
    (topoSort g).1.Perm g.nodes
    ∧ List.Pairwise (fun a b => ¬ edgeE g b a) (topoSort g).1 := by
  obtain ⟨hinvF, hworkF⟩ := topoLoop_spec g hwf (g.nodes.length + 1)
    { sorted := [],
      work := mkSet strKey (g.nodes.filter (fun n => (assocLookup g.incoming n).isNone)),
      out := g.outgoing, inc := g.incoming }
    (topoInit_inv g hwf) (by omega)
  set stF := topoLoop (g.nodes.length + 1)
    { sorted := [],
      work := mkSet strKey (g.nodes.filter (fun n => (assocLookup g.incoming n).isNone)),
      out := g.outgoing, inc := g.incoming } with hstF
  have hfst : (topoSort g).1 = stF.sorted := rfl
  have hcomplete : ∀ x ∈ g.nodes, x ∈ stF.sorted := by
    by_contra hnc
    push_neg at hnc
    obtain ⟨x0, hx0n, hx0s⟩ := hnc
    have hBne : g.nodes.filter (fun x => decide (x ∉ stF.sorted)) ≠ [] := by
      intro h0
      have hx0B : x0 ∈ g.nodes.filter (fun x => decide (x ∉ stF.sorted)) :=
        List.mem_filter.mpr ⟨hx0n, by simpa using hx0s⟩
      rw [h0] at hx0B
      exact List.not_mem_nil x0 hx0B
    have hstepB : ∀ b ∈ g.nodes.filter (fun x => decide (x ∉ stF.sorted)),
        ∃ a, a ∈ g.nodes.filter (fun x => decide (x ∉ stF.sorted)) ∧ edgeE g a b := by
      intro b hb
      obtain ⟨hbn, hbs⟩ := List.mem_filter.mp hb
      have hbs2 : b ∉ stF.sorted := by simpa using hbs
      have hiff := hinvF.workIff b hbn
      rw [hworkF] at hiff
      have hfilne : (inNbrs g b).filter (fun y => decide (y ∉ stF.sorted)) ≠ [] := by
        intro h
        exact List.not_mem_nil b (hiff.mpr ⟨hbs2, h⟩)
      obtain ⟨a, ha⟩ := List.exists_mem_of_ne_nil _ hfilne
      obtain ⟨hain, has⟩ := List.mem_filter.mp ha
      have haedge : b ∈ edgeTargets g a := (edge_symm hwf a b).mpr hain
      have hanodes : a ∈ g.nodes := (edge_endpoints hwf a b haedge).1
      exact ⟨a, List.mem_filter.mpr ⟨hanodes, has⟩, haedge⟩
    obtain ⟨x, hxB, hxreach⟩ := cycle_of_preds g _ hBne hstepB
    have hxn : x ∈ g.nodes := (List.mem_filter.mp hxB).1
    have hlen : (g.nodes.filter (fun x => decide (x ∉ stF.sorted))).length ≤ g.nodes.length :=
      List.length_filter_le _ _
    have hxr2 : reachesB g g.nodes.length x x = true :=
      reachesB_mono g _ _ hlen x x hxreach
    simp only [acyclicB, List.all_eq_true, decide_eq_true_eq] at hacyc
    exact hacyc x hxn hxr2
  have hnodesNodup : g.nodes.Nodup := nodup_of_SetWF_str _ hwf.1
  constructor
  · rw [hfst]
    rw [List.perm_ext_iff_of_nodup hinvF.sortedNodup hnodesNodup]
    intro a
    exact ⟨fun h => hinvF.sortedNodes a h, fun h => hcomplete a h⟩
  · rw [hfst]
    exact hinvF.consistent

/-- C7 witness: on the one-edge DAG `a → b` the hypotheses hold by
computation and `topoSort` emits a permutation of the nodes with no
back edge. -/
theorem c7_toposort_amended_witness :
    GraphWF gAB ∧ acyclicB gAB = true
    ∧ ((topoSort gAB).1.Perm gAB.nodes
       ∧ List.Pairwise (fun a b => ¬ edgeE gAB b a) (topoSort gAB).1) :=
  ⟨by decide, by decide, c7_toposort_amended gAB (by decide) (by decide)⟩

/-- C7 counterexample to the claim as stated: on the two-node cycle
`a → b → a` the node list is `["a", "b"]` but `topoSort` returns the
empty list — not a total order over the present nodes — and on the DAG
`a → b` the post-call graph differs from the input graph, so the
algorithm did not work on a copy of the adjacency structure. -/
theorem c7_claim_counterexample :
    gCyc.nodes = ["a", "b"]
    ∧ (topoSort gCyc).1 = []
    ∧ (topoSort gAB).2 ≠ gAB := by
  refine ⟨by decide, by decide, by decide⟩

/-- C8 witness: concrete instances of the amended pop/take contract — the
two empty-set failure messages, pop and take on the numeral-keyed set
`{"1"}`, the `TypeError` of the miss path under a throwing identifier on
`{"a"}`, and the deletion of the `"undefined"` entry of the string set
`{"a", "undefined"}` on the same miss path. -/
theorem c8_pop_take_amended_witness :
    (setPop strKey ([] : JSet String) = .error ("empty")
      ∧ setTake strKey (some "undefined") ([] : JSet String)
        = .error ("cannot take from an empty set"))
    ∧ setPop strKey ["1"] = .ok ("1", setRemove strKey ["1"] "1")
    ∧ setTake strKey (some "undefined") ["1"] = .ok (some "1", setRemove strKey ["1"] "1")
    ∧ setTake strKey none ["a"] = .error ("TypeError")
    ∧ setTake strKey (some "undefined") ["a", "undefined"]
      = .ok (none, ["a", "undefined"].filter (fun y => strKey y ≠ "undefined")) := by
  refine ⟨(c8_pop_take_amended strKey (some "undefined") []).1 rfl, ?_, ?_, ?_, ?_⟩
  · exact ((c8_pop_take_amended strKey (some "undefined") ["1"]).2 "1" [] rfl).1.2.1
  · exact (((c8_pop_take_amended strKey (some "undefined") ["1"]).2 "1" [] rfl).2.1
      (by decide)).1
  · exact (((c8_pop_take_amended strKey none ["a"]).2 "a" [] rfl).2.2 (by decide)).1
  · exact ((((c8_pop_take_amended strKey (some "undefined") ["a", "undefined"]).2
      "a" ["undefined"] rfl).2.2 (by decide)).2 "undefined").1
